import Mathlib

/-!
Shallow embedding of the JSON-dataset validation/normalization pipeline
(`validate-json` pipeline script: steps `loadConfigStep`, `validateConfigStep`,
`validateFilesStep`, `normalizeStep`, `finalizeStep` over a shared context).

JavaScript runtime values are modelled by the inductive `JsValue`; `undefined`
is `JsValue.undef`.  Places where the original JavaScript would throw a
`TypeError` past the pipeline boundary (member access on `null`/`undefined`,
calling an `undefined` validator, `path.join` on a non-string, iterating a
non-array) are modelled with `Except String`.  The external collaborators —
the byte source / JSON parser and the EVM address capability of `ethers`
(`isAddress`, `getAddress`) — are parameters (`FileSys`, `AddressCap`), as the
specification treats them as injected capabilities.
-/

/-- Non-finite JavaScript numbers (excluded by the `number` validator). -/
inductive NFin where
  | nan
  | inf
  | ninf
deriving DecidableEq

/-- A JavaScript runtime value, as produced by `JSON.parse` plus the extra
runtime values `undefined`, non-finite numbers. Objects are association lists
of own properties; numbers are modelled integrally (finiteness is all the
pipeline inspects). -/
inductive JsValue where
  | undef
  | null
  | bool (b : Bool)
  | num (n : Int)
  | nonfinite (k : NFin)
  | str (s : String)
  | arr (elems : List JsValue)
  | obj (props : List (String × JsValue))

/-- JavaScript truthiness. -/
def JsValue.truthy : JsValue → Bool
  | JsValue.undef => false
  | .null => false
  | .bool b => b
  | .num n => n != 0
  | .nonfinite k => k != NFin.nan
  | .str s => s != ""
  | .arr _ => true
  | .obj _ => true

/-- First-match own-property lookup in an object's property list. -/
def lookupProp : List (String × JsValue) → String → Option JsValue
  | [], _ => none
  | (k', v) :: ps, k => if k' = k then some v else lookupProp ps k

/-- Member access `v[k]` after the null/undefined guard: own property of an
object, `undefined` on a primitive or array (none of the accessed keys is an
array index or a built-in). -/
def jsGetW (v : JsValue) (k : String) : JsValue :=
  match v with
  | .obj ps => (lookupProp ps k).getD JsValue.undef
  | _ => JsValue.undef

/-- `Object.prototype.hasOwnProperty.call(v, k)`. -/
def hasOwnProp (v : JsValue) (k : String) : Bool :=
  match v with
  | .obj ps => ps.any (fun p => p.1 == k)
  | _ => false

/-- Replace the value at a key (first occurrence) or append it: the effect of
the assignment `v[k] = x` on an object. -/
def setProp : List (String × JsValue) → String → JsValue → List (String × JsValue)
  | [], k, x => [(k, x)]
  | (k', v) :: ps, k, x => if k' = k then (k, x) :: ps else (k', v) :: setProp ps k x

/-- The assignment `v[k] = x` (only ever applied to objects). -/
def JsValue.setOwn : JsValue → String → JsValue → JsValue
  | .obj ps, k, x => .obj (setProp ps k x)
  | v, _, _ => v

mutual
/-- JavaScript `ToString`, as used by template literals and property-key
conversion. Arrays print as their comma-joined elements, objects as
`[object Object]`. -/
def jsToString : JsValue → String
  | JsValue.undef => "undefined"
  | .null => "null"
  | .bool true => "true"
  | .bool false => "false"
  | .num n => toString n
  | .nonfinite .nan => "NaN"
  | .nonfinite .inf => "Infinity"
  | .nonfinite .ninf => "-Infinity"
  | .str s => s
  | .arr xs => jsJoinComma xs
  | .obj _ => "[object Object]"

/-- `Array.prototype.toString`: elements joined by commas, `null` and
`undefined` elements becoming empty strings. -/
def jsJoinComma : List JsValue → String
  | [] => ""
  | [.null] => ""
  | [JsValue.undef] => ""
  | [x] => jsToString x
  | .null :: xs => "," ++ jsJoinComma xs
  | JsValue.undef :: xs => "," ++ jsJoinComma xs
  | x :: xs => jsToString x ++ "," ++ jsJoinComma xs
end

/-- `Array.prototype.join(", ")` element conversion: `null` and `undefined`
become empty strings. -/
def dispElem : JsValue → String
  | .null => ""
  | JsValue.undef => ""
  | v => jsToString v

/-- `missing.join(", ")`. -/
def joinComma : List JsValue → String
  | [] => ""
  | [x] => dispElem x
  | x :: xs => dispElem x ++ ", " ++ joinComma xs

/-- The check `s.trim().length === 0`: the string contains nothing but
whitespace (modelled character-wise so that it evaluates). -/
def jsTrimEmpty (s : String) : Bool := s.data.all (fun c => c.isWhitespace)

-- --- External capabilities ---

/-- The injected EVM address capability (`isAddress` / `getAddress` from
`ethers`): a format predicate on strings and a canonicalizer that may fail
(modelled as `none` where `getAddress` would throw). -/
structure AddressCap where
  isAddress : String → Bool
  getAddress : JsValue → Option String

/-- The byte-source capability: raw file reads (failing with an I/O error
message) plus `JSON.parse` (failing with a parse error message), and the
`fs.existsSync` probe. -/
structure FileSys where
  readFile : String → Except String String
  parseJson : String → Except String JsValue
  pathExists : String → Bool

/-- `path.join(root, file)` for string arguments; the joined string is only
ever consumed by the abstract `FileSys`, so plain concatenation is adequate. -/
def joinPath (root file : String) : String := root ++ "/" ++ file

/-- The `readJson` helper: read the file, then parse, wrapping a parse
failure as an `Invalid JSON:` message (an I/O failure propagates as-is). -/
def readJson (fsys : FileSys) (p : String) : Except String JsValue :=
  match fsys.readFile p with
  | .error m => .error m
  | .ok raw =>
    match fsys.parseJson raw with
    | .ok v => .ok v
    | .error m => .error ("Invalid JSON: " ++ m)

-- --- Type validators ---

def isStringV : JsValue → Bool
  | .str _ => true
  | _ => false

def isFiniteNumberV : JsValue → Bool
  | .num _ => true
  | _ => false

def isBooleanV : JsValue → Bool
  | .bool _ => true
  | _ => false

def isNullV : JsValue → Bool
  | .null => true
  | _ => false

/-- `isEvmAddress`: a string passing the injected address-format check. -/
def isEvmAddress (cap : AddressCap) : JsValue → Bool
  | .str s => cap.isAddress s
  | _ => false

/-- The `typeValidators` registry: type tag to acceptance predicate; `none`
models an absent key (whose call would throw in JavaScript). -/
def typeValidator (cap : AddressCap) : String → Option (JsValue → Bool)
  | "string" => some isStringV
  | "number" => some isFiniteNumberV
  | "boolean" => some isBooleanV
  | "address" => some (isEvmAddress cap)
  | "nullableString" => some (fun v => isNullV v || isStringV v)
  | "nullableNumber" => some (fun v => isNullV v || isFiniteNumberV v)
  | "nullableAddress" => some (fun v => isNullV v || isEvmAddress cap v)
  | _ => none

/-- `allowedTypes = new Set(Object.keys(typeValidators))`. -/
def allowedTypes : List String :=
  ["string", "number", "boolean", "address",
   "nullableString", "nullableNumber", "nullableAddress"]

-- --- Pipeline context ---

/-- One file-group recorded by `validateFilesStep` in `ctx.loadedFiles`:
the declared path, the parsed records, and the raw `fields` value of the
config entry (unvalidated at push time). -/
structure LoadedFile where
  file : String
  data : List JsValue
  fields : JsValue

/-- The shared pipeline context created by `createContext`. -/
structure Ctx where
  rootDir : String
  configPath : String
  errors : List String
  config : JsValue
  statsFilesChecked : Nat
  statsItemsChecked : Nat
  loadedFiles : List LoadedFile

/-- `createContext()` with the machine-dependent paths as parameters. -/
def createContext (root cp : String) : Ctx :=
  { rootDir := root, configPath := cp, errors := [], config := JsValue.undef
    statsFilesChecked := 0, statsItemsChecked := 0, loadedFiles := [] }

-- --- Error message texts ---

def cfgLoadErrMsg (m : String) : String := "[config] " ++ m

def cfgLoadFailMsg : String := "[config] Config failed to load"

def rootObjMsg : String := "[config] Root must be an object"

def filesArrMsg : String := "[config] \"files\" must be a non-empty array"

/-- Common prefix of the per-entry config messages. -/
def entryPre (i : Nat) : String := "[config] File entry #" ++ toString i

def entryObjMsg (i : Nat) : String := entryPre i ++ " must be an object"

def pathMsg (i : Nat) : String := entryPre i ++ " has invalid \"path\""

def fieldsMsg (i : Nat) : String := entryPre i ++ " has invalid \"fields\""

def fieldObjMsg (i j : Nat) : String :=
  entryPre i ++ (" field #" ++ toString j ++ " must be an object")

def nameMsg (i j : Nat) : String :=
  entryPre i ++ (" field #" ++ toString j ++ " has invalid \"name\"")

def dupMsg (i : Nat) (s : String) : String :=
  entryPre i ++ (" has duplicate field name \"" ++ s ++ "\"")

def typeMsg (i j : Nat) : String :=
  entryPre i ++ (" field #" ++ toString j ++ " has invalid \"type\"")

-- --- Step A: loadConfigStep ---

/-- Step A — load and parse the config; on failure push a `[config]` error
and leave `ctx.config` unset. -/
def loadConfigStep (fsys : FileSys) (ctx : Ctx) : Ctx :=
  match readJson fsys ctx.configPath with
  | .ok v => { ctx with config := v }
  | .error m => { ctx with errors := ctx.errors ++ [cfgLoadErrMsg m] }

-- --- Step B: validateConfigStep ---

/-- The `name` check of one field rule: messages produced and the updated
seen-name set. An invalid name is reported but not recorded as seen; a valid
duplicate is reported and not re-recorded. -/
def nameCheckErrs (i j : Nat) (seen : List String) (nameV : JsValue) :
    List String × List String :=
  match nameV with
  | .str s =>
    if jsTrimEmpty s then ([nameMsg i j], seen)
    else if seen.contains s then ([dupMsg i s], seen)
    else ([], s :: seen)
  | _ => ([nameMsg i j], seen)

/-- The `type` check of one field rule: the type must be a string belonging
to the recognized tag set. -/
def typeCheckErrs (i j : Nat) (typeV : JsValue) : List String :=
  match typeV with
  | .str t => if allowedTypes.contains t then [] else [typeMsg i j]
  | _ => [typeMsg i j]

/-- The per-field loop of config validation (`fields.forEach`), carrying the
0-based field index and the set of names seen so far in this entry. -/
def fieldsErrorsGo (i : Nat) : Nat → List String → List JsValue → List String
  | _, _, [] => []
  | j, seen, f :: fs =>
    match f with
    | .obj _ =>
      let nameStep := nameCheckErrs i j seen (jsGetW f "name")
      nameStep.1 ++ typeCheckErrs i j (jsGetW f "type") ++
        fieldsErrorsGo i (j + 1) nameStep.2 fs
    | _ => fieldObjMsg i j :: fieldsErrorsGo i (j + 1) seen fs

/-- The `fields` part of one config entry's validation: `fields` must be a
non-empty array, else a single error; otherwise the per-field loop runs. -/
def fieldsCheck (i : Nat) (fv : JsValue) : List String :=
  match fv with
  | .arr [] => [fieldsMsg i]
  | .arr fl => fieldsErrorsGo i 0 [] fl
  | _ => [fieldsMsg i]

/-- Validation of one config `files` entry at index `i`: non-array object,
then the `path` check (checking continues regardless), then the `fields`
part. -/
def entryErrors (i : Nat) (entry : JsValue) : List String :=
  match entry with
  | .obj _ =>
    let pathErrs : List String :=
      match jsGetW entry "path" with
      | .str s => if jsTrimEmpty s then [pathMsg i] else []
      | _ => [pathMsg i]
    pathErrs ++ fieldsCheck i (jsGetW entry "fields")
  | _ => [entryObjMsg i]

/-- `config.files.forEach` of config validation. -/
def entriesErrors : Nat → List JsValue → List String
  | _, [] => []
  | i, e :: es => entryErrors i e ++ entriesErrors (i + 1) es

/-- All messages produced by config validation for a given `ctx.config`
value: the `Config failed to load` marker when the config is still unset,
the root-shape and `files`-shape checks, then the per-entry loop. -/
def configErrors (cfg : JsValue) : List String :=
  match cfg with
  | JsValue.undef => [cfgLoadFailMsg]
  | .obj _ =>
    match jsGetW cfg "files" with
    | .arr [] => [filesArrMsg]
    | .arr files => entriesErrors 0 files
    | _ => [filesArrMsg]
  | _ => [rootObjMsg]

/-- Step B — validate the config structure, appending its messages to the
shared error list. -/
def validateConfigStep (ctx : Ctx) : Ctx :=
  { ctx with errors := ctx.errors ++ configErrors ctx.config }

-- --- Step C: validateFilesStep ---

def itemNotObjMsg (file : String) (k : Nat) : String :=
  "[" ++ file ++ "] Item #" ++ toString k ++ " is not an object"

/-- The `(id=...)` diagnostic suffix for a record carrying an `id` key. -/
def idHint (item : JsValue) : String :=
  if hasOwnProp item "id" then " (id=" ++ jsToString (jsGetW item "id") ++ ")" else ""

def missingMsg (file : String) (k : Nat) (item : JsValue) (missing : List JsValue) : String :=
  "[" ++ file ++ "] Item #" ++ toString k ++ idHint item ++
    " missing fields: " ++ joinComma missing

def invalidTypeMsg (file : String) (k : Nat) (item nameV : JsValue) (t : String) : String :=
  "[" ++ file ++ "] Item #" ++ toString k ++ idHint item ++
    " invalid \"" ++ jsToString nameV ++ "\" type (expected " ++ t ++ ")"

def fileNotFoundMsg (file : String) : String := "[" ++ file ++ "] File not found"

def fileReadErrMsg (file m : String) : String := "[" ++ file ++ "] " ++ m

def rootArrayMsg (file : String) : String := "[" ++ file ++ "] Root JSON must be an array"

/-- `fields.map((field) => field.name)`: reading `name` off a `null` or
`undefined` element throws. -/
def fieldNamesOf : List JsValue → Except String (List JsValue)
  | [] => .ok []
  | .null :: _ => .error "TypeError"
  | JsValue.undef :: _ => .error "TypeError"
  | f :: fs =>
    match fieldNamesOf fs with
    | .ok rest => .ok (jsGetW f "name" :: rest)
    | .error e => .error e

/-- The per-field type-check loop on one record: look the validator up by the
field's `type` (an absent registry key means the JavaScript call would throw)
and report a type error when the value is rejected. -/
def typeCheckFields (cap : AddressCap) (file : String) (k : Nat) (item : JsValue) :
    List JsValue → Except String (List String)
  | [] => .ok []
  | .null :: _ => .error "TypeError"
  | JsValue.undef :: _ => .error "TypeError"
  | f :: fs =>
    let nameV := jsGetW f "name"
    let value := jsGetW item (jsToString nameV)
    match jsGetW f "type" with
    | .str t =>
      match typeValidator cap t with
      | some pred =>
        let here := if pred value then [] else [invalidTypeMsg file k item nameV t]
        match typeCheckFields cap file k item fs with
        | .ok rest => .ok (here ++ rest)
        | .error e => .error e
      | none => .error "TypeError"
    | _ => .error "TypeError"

/-- Validation of one record: shape check first, then the missing-fields
check (which suppresses type checks for the record), then the per-field
type checks. Returns the messages this record contributes. -/
def validateItem (cap : AddressCap) (file : String) (fieldsV : JsValue) (k : Nat)
    (item : JsValue) : Except String (List String) :=
  match item with
  | .obj _ =>
    match fieldsV with
    | .arr fl =>
      match fieldNamesOf fl with
      | .ok names =>
        let missing := names.filter (fun n => !hasOwnProp item (jsToString n))
        if missing.isEmpty then typeCheckFields cap file k item fl
        else .ok [missingMsg file k item missing]
      | .error e => .error e
    | _ => .error "TypeError"
  | _ => .ok [itemNotObjMsg file k]

/-- `data.forEach` over the records of one file. -/
def validateItems (cap : AddressCap) (file : String) (fieldsV : JsValue) :
    Nat → List JsValue → Except String (List String)
  | _, [] => .ok []
  | k, it :: its =>
    match validateItem cap file fieldsV k it with
    | .ok here =>
      match validateItems cap file fieldsV (k + 1) its with
      | .ok rest => .ok (here ++ rest)
      | .error e => .error e
    | .error e => .error e

/-- Validation of one declared file entry: destructure (throws on
`null`/`undefined`), resolve the path (`path.join` throws on a non-string),
then existence, parse and root-shape checks, each failure continuing to the
next entry; on a successful load the file-group is recorded and every record
is checked. Returns the messages, the recorded file-group if any, and the
number of records counted into `itemsChecked`. -/
def validateFileEntry (fsys : FileSys) (cap : AddressCap) (root : String)
    (entry : JsValue) : Except String (List String × Option LoadedFile × Nat) :=
  match entry with
  | .null => .error "TypeError"
  | JsValue.undef => .error "TypeError"
  | _ =>
    match jsGetW entry "path" with
    | .str file =>
      let fp := joinPath root file
      if !fsys.pathExists fp then .ok ([fileNotFoundMsg file], none, 0)
      else
        match readJson fsys fp with
        | .error m => .ok ([fileReadErrMsg file m], none, 0)
        | .ok d =>
          match d with
          | .arr items =>
            let fieldsV := jsGetW entry "fields"
            match validateItems cap file fieldsV 0 items with
            | .ok msgs => .ok (msgs, some ⟨file, items, fieldsV⟩, items.length)
            | .error e => .error e
          | _ => .ok ([rootArrayMsg file], none, 0)
    | _ => .error "TypeError"

/-- Accumulated outcome of the file-validation loop: new messages, newly
recorded file-groups, and the two counter increments. -/
structure FilesOut where
  errs : List String
  loaded : List LoadedFile
  nFiles : Nat
  nItems : Nat

/-- The `for ... of ctx.config.files` loop of `validateFilesStep`. -/
def validateFilesGo (fsys : FileSys) (cap : AddressCap) (root : String) :
    List JsValue → Except String FilesOut
  | [] => .ok ⟨[], [], 0, 0⟩
  | e :: es =>
    match validateFileEntry fsys cap root e with
    | .ok (errs, lf?, nIt) =>
      match validateFilesGo fsys cap root es with
      | .ok out =>
        .ok ⟨errs ++ out.errs, lf?.toList ++ out.loaded, out.nFiles + 1, nIt + out.nItems⟩
      | .error e2 => .error e2
    | .error e2 => .error e2

/-- Step C — validate every declared file; skipped entirely when the config
is falsy or any earlier step recorded an error, or when `config.files` is not
an array. -/
def validateFilesStep (fsys : FileSys) (cap : AddressCap) (ctx : Ctx) :
    Except String Ctx :=
  if !ctx.config.truthy || !ctx.errors.isEmpty then .ok ctx
  else
    match jsGetW ctx.config "files" with
    | .arr files =>
      match validateFilesGo fsys cap ctx.rootDir files with
      | .ok out =>
        .ok { ctx with
              errors := ctx.errors ++ out.errs
              loadedFiles := ctx.loadedFiles ++ out.loaded
              statsFilesChecked := ctx.statsFilesChecked + out.nFiles
              statsItemsChecked := ctx.statsItemsChecked + out.nItems }
      | .error e => .error e
    | _ => .ok ctx

-- --- Step D: normalizeStep ---

def normFailMsg (file : String) (k : Nat) (item nameV : JsValue) : String :=
  "[" ++ file ++ "] Item #" ++ toString k ++ idHint item ++
    " failed to normalize \"" ++ jsToString nameV ++ "\""

/-- One field of one record inside the Normalizer: non-address types are
skipped, a `nullableAddress` holding `null` is skipped, otherwise the
canonicalizer runs — success overwrites the field in place, failure leaves
the value as-is and reports it. -/
def normField (cap : AddressCap) (file : String) (k : Nat) (item field : JsValue) :
    JsValue × List String :=
  match jsGetW field "type" with
  | .str "address" =>
    let key := jsToString (jsGetW field "name")
    match cap.getAddress (jsGetW item key) with
    | some s => (item.setOwn key (.str s), [])
    | none => (item, [normFailMsg file k item (jsGetW field "name")])
  | .str "nullableAddress" =>
    let key := jsToString (jsGetW field "name")
    match jsGetW item key with
    | .null => (item, [])
    | v =>
      match cap.getAddress v with
      | some s => (item.setOwn key (.str s), [])
      | none => (item, [normFailMsg file k item (jsGetW field "name")])
  | _ => (item, [])

/-- The `for (const field of fields)` loop of the Normalizer over one record
(destructuring a `null`/`undefined` field throws). -/
def normFields (cap : AddressCap) (file : String) (k : Nat) :
    JsValue → List JsValue → Except String (JsValue × List String)
  | item, [] => .ok (item, [])
  | _, .null :: _ => .error "TypeError"
  | _, JsValue.undef :: _ => .error "TypeError"
  | item, f :: fs =>
    let step := normField cap file k item f
    match normFields cap file k step.1 fs with
    | .ok (item2, rest) => .ok (item2, step.2 ++ rest)
    | .error e => .error e

/-- The per-record loop of the Normalizer over one file-group: non-object
records are skipped; iterating a non-array `fields` value throws. -/
def normItems (cap : AddressCap) (file : String) (fieldsV : JsValue) :
    Nat → List JsValue → Except String (List JsValue × List String)
  | _, [] => .ok ([], [])
  | k, it :: its =>
    match it with
    | .obj _ =>
      match fieldsV with
      | .arr fl =>
        match normFields cap file k it fl with
        | .ok (it2, errs) =>
          match normItems cap file fieldsV (k + 1) its with
          | .ok (rest, errs2) => .ok (it2 :: rest, errs ++ errs2)
          | .error e => .error e
        | .error e => .error e
      | _ => .error "TypeError"
    | _ =>
      match normItems cap file fieldsV (k + 1) its with
      | .ok (rest, errs2) => .ok (it :: rest, errs2)
      | .error e => .error e

/-- Normalization of one recorded file-group. -/
def normFile (cap : AddressCap) (lf : LoadedFile) :
    Except String (LoadedFile × List String) :=
  match normItems cap lf.file lf.fields 0 lf.data with
  | .ok (d2, errs) => .ok (⟨lf.file, d2, lf.fields⟩, errs)
  | .error e => .error e

/-- The loop over `ctx.loadedFiles`. -/
def normFiles (cap : AddressCap) :
    List LoadedFile → Except String (List LoadedFile × List String)
  | [] => .ok ([], [])
  | lf :: lfs =>
    match normFile cap lf with
    | .ok (lf2, errs) =>
      match normFiles cap lfs with
      | .ok (rest, errs2) => .ok (lf2 :: rest, errs ++ errs2)
      | .error e => .error e
    | .error e => .error e

/-- Step D — normalize address fields of the loaded records; a no-op when
any error has been recorded or no file-group was loaded. -/
def normalizeStep (cap : AddressCap) (ctx : Ctx) : Except String Ctx :=
  if ctx.errors.length > 0 then .ok ctx
  else if ctx.loadedFiles.isEmpty then .ok ctx
  else
    match normFiles cap ctx.loadedFiles with
    | .ok (lfs, errs) =>
      .ok { ctx with loadedFiles := lfs, errors := ctx.errors ++ errs }
    | .error e => .error e

-- --- Step E: finalizeStep, and the pipeline runner ---

/-- Step E — the Reporter: a failure signal with the accumulated messages
when any error was recorded, a success signal otherwise (the printing and
`process.exit` belong to the excluded CLI layer). -/
def finalizeStep (ctx : Ctx) : Bool × List String :=
  if ctx.errors.length > 0 then (false, ctx.errors) else (true, [])

/-- `runPipeline`: run the steps in order over the shared context; a step's
uncaught throw (modelled by `.error`) escapes the runner. -/
def runPipeline : List (Ctx → Except String Ctx) → Ctx → Except String Ctx
  | [], ctx => .ok ctx
  | s :: rest, ctx =>
    match s ctx with
    | .ok ctx2 => runPipeline rest ctx2
    | .error e => .error e

/-- The four context-transforming steps in their fixed order (the Reporter,
which only reads the context, is applied separately). -/
def pipelineSteps (fsys : FileSys) (cap : AddressCap) : List (Ctx → Except String Ctx) :=
  [fun c => .ok (loadConfigStep fsys c),
   fun c => .ok (validateConfigStep c),
   validateFilesStep fsys cap,
   normalizeStep cap]

/-- A whole run up to (excluding) the Reporter. -/
def runAll (fsys : FileSys) (cap : AddressCap) (ctx : Ctx) : Except String Ctx :=
  runPipeline (pipelineSteps fsys cap) ctx

-- --- Specification-side predicates used in theorem statements ---

/-- A config field rule that passes every per-field check of config
validation. -/
def fieldValidB (f : JsValue) : Bool :=
  match f with
  | .obj _ =>
    (match jsGetW f "name" with
     | .str s => !(jsTrimEmpty s)
     | _ => false) &&
    (match jsGetW f "type" with
     | .str t => allowedTypes.contains t
     | _ => false)
  | _ => false

/-- The declared name of a field rule (empty for an invalid one). -/
def fieldNameStr (f : JsValue) : String :=
  match jsGetW f "name" with
  | .str s => s
  | _ => ""

def namesOf (fl : List JsValue) : List String := fl.map fieldNameStr

/-- No element repeats. -/
def nodupB : List String → Bool
  | [] => true
  | s :: ss => !ss.contains s && nodupB ss

/-- Reference scan for the duplicate-name check: every occurrence of a name
already seen at the moment it is scanned, in order (the first valid
occurrence records the name as seen, later ones are emitted). -/
def dupsOf : List String → List String → List String
  | _, [] => []
  | seen, s :: ss =>
    if seen.contains s then s :: dupsOf seen ss else dupsOf (s :: seen) ss

/-- The name of a field rule when it passes the code's name check: the field
is a non-array object whose `name` is a string with non-empty trimmed
content. Only such occurrences participate in the seen-name set. -/
def validNameOf (f : JsValue) : Option String :=
  match f with
  | .obj _ =>
    match jsGetW f "name" with
    | .str s => if jsTrimEmpty s then none else some s
    | _ => none
  | _ => none

/-- The sequence of valid field names of a fields list, in order. -/
def validNamesOf (fl : List JsValue) : List String := fl.filterMap validNameOf

/-- The entry's `path` is a non-empty (after trimming) string. -/
def pathOkB (entry : JsValue) : Bool :=
  match jsGetW entry "path" with
  | .str s => !(jsTrimEmpty s)
  | _ => false

/-- A config `files` entry that passes every entry-level check. -/
def entryRuleOK (e : JsValue) : Bool :=
  match e with
  | .obj _ =>
    pathOkB e &&
    (match jsGetW e "fields" with
     | .arr fl => !fl.isEmpty && fl.all fieldValidB && nodupB (namesOf fl)
     | _ => false)
  | _ => false

/-- A well-formed schema config: a non-array object whose `files` member is a
non-empty array of well-formed entries. -/
def configOK (cfg : JsValue) : Bool :=
  match cfg with
  | .obj _ =>
    match jsGetW cfg "files" with
    | .arr fl => !fl.isEmpty && fl.all entryRuleOK
    | _ => false
  | _ => false

/-- The canonicalization capability succeeds wherever the Normalizer will
invoke it on this value of a field of type tag `t`. -/
def canonReq (cap : AddressCap) (t : String) (v : JsValue) : Bool :=
  if t = "address" then (cap.getAddress v).isSome
  else if t = "nullableAddress" then
    match v with
    | .null => true
    | _ => (cap.getAddress v).isSome
  else true

/-- One declared field is present on the record as an own key, its value
passes the registered type validator, and (for address-typed fields) the
value can be canonicalized. -/
def fieldValueOK (cap : AddressCap) (item f : JsValue) : Bool :=
  hasOwnProp item (jsToString (jsGetW f "name")) &&
  (match jsGetW f "type" with
   | .str t =>
     match typeValidator cap t with
     | some pred =>
       pred (jsGetW item (jsToString (jsGetW f "name"))) &&
       canonReq cap t (jsGetW item (jsToString (jsGetW f "name")))
     | none => false
   | _ => false)

/-- A schema-conforming record. -/
def itemOK (cap : AddressCap) (fl : List JsValue) (item : JsValue) : Bool :=
  match item with
  | .obj _ => fl.all (fieldValueOK cap item)
  | _ => false

/-- The data file declared by a config entry exists, parses to an array, and
every record conforms. -/
def entryDataOK (fsys : FileSys) (cap : AddressCap) (root : String) (e : JsValue) : Bool :=
  match jsGetW e "path" with
  | .str f =>
    fsys.pathExists (joinPath root f) &&
    (match readJson fsys (joinPath root f) with
     | .ok (.arr items) =>
       (match jsGetW e "fields" with
        | .arr fl => items.all (itemOK cap fl)
        | _ => false)
     | _ => false)
  | _ => false

/-- Invariant of a recorded file-group under which normalization is clean. -/
def loadedOK (cap : AddressCap) (lf : LoadedFile) : Bool :=
  match lf.fields with
  | .arr fl => fl.all fieldValidB && nodupB (namesOf fl) && lf.data.all (itemOK cap fl)
  | _ => false

/-- The type tags handled by the Normalizer. -/
def isAddrType (v : JsValue) : Bool :=
  match v with
  | .str t => t == "address" || t == "nullableAddress"
  | _ => false

/-- The Normalizer's null-skip case: a `nullableAddress` field whose current
value is `null`. -/
def nullSkip (tv value : JsValue) : Bool :=
  match tv, value with
  | .str "nullableAddress", .null => true
  | _, _ => false

-- --- Concrete fixtures for witness and counterexample theorems ---

/-- An address capability that rejects and fails everything. -/
def cap0 : AddressCap := ⟨fun _ => false, fun _ => none⟩

/-- A file system with no files and failing reads. -/
def fsys0 : FileSys := ⟨fun _ => .error "ENOENT", fun _ => .error "bad", fun _ => false⟩

/-- A well-formed one-file, one-field schema config. -/
def cfgW : JsValue :=
  .obj [("files", .arr [.obj [("path", .str "a.json"),
    ("fields", .arr [.obj [("name", .str "id"), ("type", .str "string")]])]])]

/-- A conforming data file for `cfgW`. -/
def dataW : JsValue := .arr [.obj [("id", .str "x")]]

/-- A file system carrying `cfgW` at the config path and `dataW` at the
declared data path. -/
def fsysW : FileSys :=
  ⟨fun p => .ok p,
   fun s => if s = "cp" then .ok cfgW
            else if s = "root/a.json" then .ok dataW
            else .error "bad",
   fun p => p == "root/a.json"⟩

/-- A context that already carries an accumulated error. -/
def ctxErrW : Ctx := { createContext "root" "cp" with errors := ["boom"] }

-- --- Theorems ---

/-- Claim C2: in every run whose accumulated error list is non-empty after
config loading and config validation, the FileValidator step performs no
file-level checks: the context is returned unchanged (no error appended, the
loaded-files list and both counters untouched), and the result does not
depend on the file system or address capability, so no file is probed. -/
theorem validateFilesStep_skips_on_prior_errors (fsys : FileSys) (cap : AddressCap)
    (ctx : Ctx) (h : ctx.errors ≠ []) :
    validateFilesStep fsys cap ctx = .ok ctx := by
  unfold validateFilesStep
  cases hE : ctx.errors with
  | nil => exact absurd hE h
  | cons a l => simp [hE, List.isEmpty]

/-- Witness for C2 at a concrete context already carrying an error. -/
theorem validateFilesStep_skips_on_prior_errors_w :
    validateFilesStep fsys0 cap0 ctxErrW = .ok ctxErrW :=
  validateFilesStep_skips_on_prior_errors fsys0 cap0 ctxErrW (by decide)

/-- Claim C3: in every run whose accumulated error list is non-empty after
the FileValidator step, the Normalizer is a no-op: the context is returned
unchanged, so no record value is mutated and no normalization error is
appended. -/
theorem normalizeStep_skips_on_prior_errors (cap : AddressCap) (ctx : Ctx)
    (h : ctx.errors ≠ []) : normalizeStep cap ctx = .ok ctx := by
  unfold normalizeStep
  cases hE : ctx.errors with
  | nil => exact absurd hE h
  | cons a l => simp [hE]

/-- Witness for C3 at a concrete context already carrying an error. -/
theorem normalizeStep_skips_on_prior_errors_w :
    normalizeStep cap0 ctxErrW = .ok ctxErrW :=
  normalizeStep_skips_on_prior_errors cap0 ctxErrW (by decide)

/-- Claim C10: every pipeline step only appends to the shared error list.
For each of the four context-transforming steps, whenever the step completes
(does not throw), the error list afterwards is the error list before with
zero or more messages appended at the end; the Reporter appends nothing and
reports the accumulated list itself (in order) on failure. -/
theorem pipeline_steps_append_only (fsys : FileSys) (cap : AddressCap) (ctx : Ctx) :
    (∃ t, (loadConfigStep fsys ctx).errors = ctx.errors ++ t) ∧
    (∃ t, (validateConfigStep ctx).errors = ctx.errors ++ t) ∧
    (∀ c2, validateFilesStep fsys cap ctx = .ok c2 → ∃ t, c2.errors = ctx.errors ++ t) ∧
    (∀ c2, normalizeStep cap ctx = .ok c2 → ∃ t, c2.errors = ctx.errors ++ t) ∧
    (finalizeStep ctx = (true, []) ∨ finalizeStep ctx = (false, ctx.errors)) := by
  refine ⟨?_, ⟨configErrors ctx.config, rfl⟩, ?_, ?_, ?_⟩
  · unfold loadConfigStep
    cases readJson fsys ctx.configPath with
    | ok v => exact ⟨[], by simp⟩
    | error m => exact ⟨[cfgLoadErrMsg m], rfl⟩
  · intro c2 h
    unfold validateFilesStep at h
    split at h
    · exact ⟨[], by cases h; simp⟩
    · split at h
      · split at h
        · cases h
          exact ⟨_, rfl⟩
        · cases h
      · exact ⟨[], by cases h; simp⟩
  · intro c2 h
    unfold normalizeStep at h
    split at h
    · exact ⟨[], by cases h; simp⟩
    · split at h
      · exact ⟨[], by cases h; simp⟩
      · split at h
        · cases h
          exact ⟨_, rfl⟩
        · cases h
  · unfold finalizeStep
    split
    · exact Or.inr rfl
    · exact Or.inl rfl

/-- Witness for C10: the append-only facts instantiated on a concrete
context and file system, the two fallible steps completing there. -/
theorem pipeline_steps_append_only_w :
    (∃ t, (loadConfigStep fsys0 (createContext "root" "cp")).errors =
      (createContext "root" "cp").errors ++ t) ∧
    (∃ t, (createContext "root" "cp").errors = (createContext "root" "cp").errors ++ t) ∧
    (∃ t, (createContext "root" "cp").errors = (createContext "root" "cp").errors ++ t) :=
  ⟨(pipeline_steps_append_only fsys0 cap0 (createContext "root" "cp")).1,
   (pipeline_steps_append_only fsys0 cap0 (createContext "root" "cp")).2.2.1
     (createContext "root" "cp") rfl,
   (pipeline_steps_append_only fsys0 cap0 (createContext "root" "cp")).2.2.2.1
     (createContext "root" "cp") rfl⟩

/-- Claim C5: a declared FileRule whose resolved file does not exist
contributes exactly one `File not found` error (and no file-group, no item
count), and the file loop continues: prepending such an entry to any list of
remaining entries processes the remaining entries exactly as before, so every
later declared file is still fully checked. -/
theorem fileNotFound_one_error_and_continue (fsys : FileSys) (cap : AddressCap)
    (root : String) (ps : List (String × JsValue)) (f : String)
    (hP : jsGetW (.obj ps) "path" = .str f)
    (hNoFile : fsys.pathExists (joinPath root f) = false) :
    validateFileEntry fsys cap root (.obj ps) = .ok ([fileNotFoundMsg f], none, 0) ∧
    (∀ rest out, validateFilesGo fsys cap root rest = .ok out →
      validateFilesGo fsys cap root (.obj ps :: rest) =
        .ok ⟨fileNotFoundMsg f :: out.errs, out.loaded, out.nFiles + 1, out.nItems⟩) := by
  have hEntry : validateFileEntry fsys cap root (.obj ps) =
      .ok ([fileNotFoundMsg f], none, 0) := by
    unfold validateFileEntry
    simp [hP, hNoFile]
  refine ⟨hEntry, ?_⟩
  intro rest out h
  unfold validateFilesGo
  rw [hEntry, h]
  simp

/-- Witness for C5: a concrete entry over a file system with no files. -/
theorem fileNotFound_one_error_and_continue_w :
    validateFileEntry fsys0 cap0 "root" (.obj [("path", .str "a.json")]) =
      .ok ([fileNotFoundMsg "a.json"], none, 0) ∧
    validateFilesGo fsys0 cap0 "root" [.obj [("path", .str "a.json")]] =
      .ok ⟨[fileNotFoundMsg "a.json"], [], 1, 0⟩ := by
  have h := fileNotFound_one_error_and_continue fsys0 cap0 "root"
    [("path", .str "a.json")] "a.json" rfl rfl
  exact ⟨h.1, h.2 [] ⟨[], [], 0, 0⟩ rfl⟩

/-- Claim C4: a record that is a non-array object but lacks at least one
declared field name as an own key contributes exactly one error — the
missing-fields message listing the absent names — and in particular no
type-check error for any field of that record. -/
theorem missing_fields_single_error (cap : AddressCap) (file : String) (k : Nat)
    (fl : List JsValue) (ps : List (String × JsValue)) (names : List JsValue)
    (hN : fieldNamesOf fl = .ok names)
    (hMiss : names.filter (fun n => !hasOwnProp (.obj ps) (jsToString n)) ≠ []) :
    validateItem cap file (.arr fl) k (.obj ps) =
      .ok [missingMsg file k (.obj ps)
        (names.filter (fun n => !hasOwnProp (.obj ps) (jsToString n)))] := by
  unfold validateItem
  cases hM : names.filter (fun n => !hasOwnProp (.obj ps) (jsToString n)) with
  | nil => exact absurd hM hMiss
  | cons a l => simp [hN, hM]

/-- Witness for C4: a concrete record missing its single declared field. -/
theorem missing_fields_single_error_w :
    validateItem cap0 "a.json"
      (.arr [.obj [("name", .str "id"), ("type", .str "string")]]) 0
      (.obj [("foo", .str "bar")]) =
      .ok ["[a.json] Item #0 missing fields: id"] := by
  have h := missing_fields_single_error cap0 "a.json" 0
    [.obj [("name", .str "id"), ("type", .str "string")]] [("foo", .str "bar")]
    [.str "id"] rfl (List.cons_ne_nil _ _)
  rw [h]
  rfl

/-- The Normalizer handles exactly the tags `address` and `nullableAddress`. -/
theorem isAddrType_str (t : String) (h : isAddrType (.str t) = true) :
    t = "address" ∨ t = "nullableAddress" := by
  simpa [isAddrType] using h

/-- Claim C8: when the Normalizer reaches a field, (1) a `nullableAddress`
field holding `null` is left untouched with no error; (2) an address-typed
field whose canonicalization fails keeps its prior value — the record is not
reverted or removed — and exactly one normalization-failure error naming that
field is appended; (3) a field whose type is neither `address` nor
`nullableAddress` is never modified and contributes no error. -/
theorem normalizer_field_cases (cap : AddressCap) (file : String) (k : Nat)
    (item field : JsValue) :
    (jsGetW field "type" = .str "nullableAddress" →
      jsGetW item (jsToString (jsGetW field "name")) = .null →
      normField cap file k item field = (item, [])) ∧
    (∀ t : String, jsGetW field "type" = .str t → isAddrType (.str t) = true →
      nullSkip (.str t) (jsGetW item (jsToString (jsGetW field "name"))) = false →
      cap.getAddress (jsGetW item (jsToString (jsGetW field "name"))) = none →
      normField cap file k item field =
        (item, [normFailMsg file k item (jsGetW field "name")])) ∧
    (isAddrType (jsGetW field "type") = false →
      normField cap file k item field = (item, [])) := by
  refine ⟨?_, ?_, ?_⟩
  · intro hT hV
    unfold normField
    simp [hT, hV]
  · intro t hT hA hS hG
    rcases isAddrType_str t hA with h | h
    · subst h
      unfold normField
      simp [hT, hG]
    · subst h
      unfold normField
      cases hv : jsGetW item (jsToString (jsGetW field "name")) with
      | null =>
        rw [hv] at hS
        exact absurd hS (by simp [nullSkip])
      | undef =>
        rw [hv] at hG
        simp [hT, hv, hG]
      | bool b =>
        rw [hv] at hG
        simp [hT, hv, hG]
      | num n =>
        rw [hv] at hG
        simp [hT, hv, hG]
      | nonfinite nf =>
        rw [hv] at hG
        simp [hT, hv, hG]
      | str s =>
        rw [hv] at hG
        simp [hT, hv, hG]
      | arr xs =>
        rw [hv] at hG
        simp [hT, hv, hG]
      | obj pr =>
        rw [hv] at hG
        simp [hT, hv, hG]
  · intro h
    unfold normField
    split
    · rename_i heq
      rw [heq] at h
      simp [isAddrType] at h
    · rename_i heq
      rw [heq] at h
      simp [isAddrType] at h
    · rfl

/-- Witness for C8: the three Normalizer field cases at concrete inputs —
a null `nullableAddress` value, a failing canonicalization, and a
`string`-typed field. -/
theorem normalizer_field_cases_w :
    normField cap0 "f" 0 (.obj [("addr", .null)])
      (.obj [("name", .str "addr"), ("type", .str "nullableAddress")]) =
      (.obj [("addr", .null)], []) ∧
    normField cap0 "f" 0 (.obj [("addr", .str "0xZ")])
      (.obj [("name", .str "addr"), ("type", .str "address")]) =
      (.obj [("addr", .str "0xZ")],
       [normFailMsg "f" 0 (.obj [("addr", .str "0xZ")]) (.str "addr")]) ∧
    normField cap0 "f" 0 (.obj [("x", .str "v")])
      (.obj [("name", .str "x"), ("type", .str "string")]) =
      (.obj [("x", .str "v")], []) :=
  ⟨(normalizer_field_cases cap0 "f" 0 (.obj [("addr", .null)])
      (.obj [("name", .str "addr"), ("type", .str "nullableAddress")])).1 rfl rfl,
   (normalizer_field_cases cap0 "f" 0 (.obj [("addr", .str "0xZ")])
      (.obj [("name", .str "addr"), ("type", .str "address")])).2.1
      "address" rfl rfl rfl rfl,
   (normalizer_field_cases cap0 "f" 0 (.obj [("x", .str "v")])
      (.obj [("name", .str "x"), ("type", .str "string")])).2.2 rfl⟩

/-- Destructor for a field rule passing every per-field config check. -/
theorem fieldValidB_elim (f : JsValue) (h : fieldValidB f = true) :
    ∃ ps s t, f = .obj ps ∧ jsGetW f "name" = .str s ∧
      jsTrimEmpty s = false ∧ jsGetW f "type" = .str t ∧
      allowedTypes.contains t = true := by
  cases f with
  | undef => simp [fieldValidB] at h
  | null => simp [fieldValidB] at h
  | bool b => simp [fieldValidB] at h
  | num n => simp [fieldValidB] at h
  | nonfinite nf => simp [fieldValidB] at h
  | str s => simp [fieldValidB] at h
  | arr xs => simp [fieldValidB] at h
  | obj ps =>
    unfold fieldValidB at h
    rw [Bool.and_eq_true] at h
    obtain ⟨h1, h2⟩ := h
    cases hn : jsGetW (JsValue.obj ps) "name" with
    | str s =>
      rw [hn] at h1
      cases ht : jsGetW (JsValue.obj ps) "type" with
      | str t =>
        rw [ht] at h2
        refine ⟨ps, s, t, rfl, rfl, ?_, rfl, h2⟩
        simpa using h1
      | undef => rw [ht] at h2; simp at h2
      | null => rw [ht] at h2; simp at h2
      | bool b => rw [ht] at h2; simp at h2
      | num n => rw [ht] at h2; simp at h2
      | nonfinite nf => rw [ht] at h2; simp at h2
      | arr xs => rw [ht] at h2; simp at h2
      | obj ps2 => rw [ht] at h2; simp at h2
    | undef => rw [hn] at h1; simp at h1
    | null => rw [hn] at h1; simp at h1
    | bool b => rw [hn] at h1; simp at h1
    | num n => rw [hn] at h1; simp at h1
    | nonfinite nf => rw [hn] at h1; simp at h1
    | arr xs => rw [hn] at h1; simp at h1
    | obj ps2 => rw [hn] at h1; simp at h1

/-- With every field rule valid, the per-field loop emits exactly the
duplicate-name messages of the reference scan, in order. -/
theorem lemFieldsGoDups (i : Nat) :
    ∀ (fl : List JsValue), fl.all fieldValidB = true →
      ∀ (j : Nat) (seen : List String),
        fieldsErrorsGo i j seen fl = (dupsOf seen (namesOf fl)).map (dupMsg i) := by
  intro fl
  induction fl with
  | nil => intro _ j seen; rfl
  | cons f fs ih =>
    intro h j seen
    rw [List.all_cons, Bool.and_eq_true] at h
    obtain ⟨hf, hfs⟩ := h
    obtain ⟨ps, s, t, hfe, hn, htrim, ht, hconta⟩ := fieldValidB_elim f hf
    subst hfe
    unfold fieldsErrorsGo
    have hconta2 : t ∈ allowedTypes := by simpa using hconta
    by_cases hc : s ∈ seen
    · simp [nameCheckErrs, typeCheckErrs, hn, ht, htrim, hconta2, hc, dupsOf,
        namesOf, fieldNameStr, ih hfs]
    · simp [nameCheckErrs, typeCheckErrs, hn, ht, htrim, hconta2, hc, dupsOf,
        namesOf, fieldNameStr, ih hfs]

/-- Multiplicity of a name in the reference duplicate scan: its full count
when already seen, one less than its count otherwise. -/
theorem lemDupsOfCount (s : String) : ∀ (ns seen : List String),
    (dupsOf seen ns).count s =
      if seen.contains s then ns.count s else ns.count s - 1 := by
  intro ns
  induction ns with
  | nil => intro seen; simp [dupsOf]
  | cons a ts ih =>
    intro seen
    unfold dupsOf
    by_cases hc : a ∈ seen
    · have hc' : seen.contains a = true := by simpa using hc
      rw [if_pos hc']
      by_cases has : a = s
      · subst has
        simp [List.count_cons, ih, hc, hc']
      · have has' : ¬(s = a) := fun hh => has hh.symm
        simp [List.count_cons, ih, hc, hc', has, has']
    · have hc' : ¬(seen.contains a = true) := by simpa using hc
      have hcf : seen.contains a = false := by simpa using hc
      rw [if_neg hc', ih (a :: seen)]
      by_cases has : a = s
      · subst has
        simp [List.contains_cons, List.count_cons, hc, hcf]
      · have has' : ¬(s = a) := fun hh => has hh.symm
        simp [List.contains_cons, List.count_cons, hc, hcf, has, has']

/-- The duplicate-name message determines the repeated name. -/
theorem lemDupMsgInj (i : Nat) : Function.Injective (dupMsg i) := by
  intro a b h
  unfold dupMsg at h
  have hd := congrArg String.data h
  simp only [String.data_append] at hd
  exact String.ext (List.append_cancel_left (List.append_cancel_right
    (List.append_cancel_left hd)))

/-- Appending to a common prefix preserves length differences. -/
theorem lemMsgTailLen {p t1 t2 : String} (h : p ++ t1 = p ++ t2) :
    t1.length = t2.length := by
  have hl := congrArg String.length h
  rw [String.length_append, String.length_append] at hl
  exact Nat.add_left_cancel hl

/-- The invalid-path message differs from the invalid-fields message. -/
theorem lemPathNeFields (i : Nat) : pathMsg i ≠ fieldsMsg i := by
  intro h
  unfold pathMsg fieldsMsg at h
  exact absurd (lemMsgTailLen h) (by decide)

/-- The invalid-path message differs from every field-must-be-object
message. -/
theorem lemPathNeFieldObj (i j : Nat) : pathMsg i ≠ fieldObjMsg i j := by
  intro h
  unfold pathMsg fieldObjMsg at h
  have h2 := lemMsgTailLen h
  rw [String.length_append, String.length_append] at h2
  have e1 : (" has invalid \"path\"" : String).length = 19 := by decide
  have e2 : (" field #" : String).length = 8 := by decide
  have e3 : (" must be an object" : String).length = 18 := by decide
  rw [e1, e2, e3] at h2
  omega

/-- The invalid-path message differs from every invalid-name message. -/
theorem lemPathNeName (i j : Nat) : pathMsg i ≠ nameMsg i j := by
  intro h
  unfold pathMsg nameMsg at h
  have h2 := lemMsgTailLen h
  rw [String.length_append, String.length_append] at h2
  have e1 : (" has invalid \"path\"" : String).length = 19 := by decide
  have e2 : (" field #" : String).length = 8 := by decide
  have e3 : (" has invalid \"name\"" : String).length = 19 := by decide
  rw [e1, e2, e3] at h2
  omega

/-- The invalid-path message differs from every invalid-type message. -/
theorem lemPathNeType (i j : Nat) : pathMsg i ≠ typeMsg i j := by
  intro h
  unfold pathMsg typeMsg at h
  have h2 := lemMsgTailLen h
  rw [String.length_append, String.length_append] at h2
  have e1 : (" has invalid \"path\"" : String).length = 19 := by decide
  have e2 : (" field #" : String).length = 8 := by decide
  have e3 : (" has invalid \"type\"" : String).length = 19 := by decide
  rw [e1, e2, e3] at h2
  omega

/-- The invalid-path message differs from every duplicate-name message. -/
theorem lemPathNeDup (i : Nat) (s : String) : pathMsg i ≠ dupMsg i s := by
  intro h
  unfold pathMsg dupMsg at h
  have h2 := lemMsgTailLen h
  rw [String.length_append, String.length_append] at h2
  have e1 : (" has invalid \"path\"" : String).length = 19 := by decide
  have e2 : (" has duplicate field name \"" : String).length = 27 := by decide
  have e3 : ("\"" : String).length = 1 := by decide
  rw [e1, e2, e3] at h2
  omega

/-- The name check of one field contributes nothing, an invalid-name
message, or a duplicate-name message. -/
theorem lemNameCheckShape (i j : Nat) (seen : List String) (nameV : JsValue) :
    (nameCheckErrs i j seen nameV).1 = [] ∨
    (nameCheckErrs i j seen nameV).1 = [nameMsg i j] ∨
    ∃ s, (nameCheckErrs i j seen nameV).1 = [dupMsg i s] := by
  unfold nameCheckErrs
  cases nameV with
  | str s =>
    by_cases h1 : jsTrimEmpty s = true
    · exact Or.inr (Or.inl (by simp [h1]))
    · have h1' : jsTrimEmpty s = false := by simpa using h1
      by_cases h2 : s ∈ seen
      · exact Or.inr (Or.inr ⟨s, by simp [h1', h2]⟩)
      · exact Or.inl (by simp [h1', h2])
  | undef => exact Or.inr (Or.inl rfl)
  | null => exact Or.inr (Or.inl rfl)
  | bool b => exact Or.inr (Or.inl rfl)
  | num n => exact Or.inr (Or.inl rfl)
  | nonfinite nf => exact Or.inr (Or.inl rfl)
  | arr xs => exact Or.inr (Or.inl rfl)
  | obj ps => exact Or.inr (Or.inl rfl)

/-- The type check of one field contributes nothing or an invalid-type
message. -/
theorem lemTypeCheckShape (i j : Nat) (typeV : JsValue) :
    typeCheckErrs i j typeV = [] ∨ typeCheckErrs i j typeV = [typeMsg i j] := by
  unfold typeCheckErrs
  cases typeV with
  | str t =>
    by_cases h : t ∈ allowedTypes
    · exact Or.inl (by simp [h])
    · exact Or.inr (by simp [h])
  | undef => exact Or.inr rfl
  | null => exact Or.inr rfl
  | bool b => exact Or.inr rfl
  | num n => exact Or.inr rfl
  | nonfinite nf => exact Or.inr rfl
  | arr xs => exact Or.inr rfl
  | obj ps => exact Or.inr rfl

/-- The per-field loop never emits the invalid-path message. -/
theorem lemPathNotInGo (i : Nat) : ∀ (fl : List JsValue) (j : Nat)
    (seen : List String), pathMsg i ∉ fieldsErrorsGo i j seen fl := by
  intro fl
  induction fl with
  | nil => intro j seen; simp [fieldsErrorsGo]
  | cons f fs ih =>
    intro j seen
    unfold fieldsErrorsGo
    cases f with
    | obj ps =>
      intro hm
      simp only [List.mem_append] at hm
      rcases hm with (hm1 | hm2) | hm3
      · rcases lemNameCheckShape i j seen (jsGetW (JsValue.obj ps) "name")
          with hs | hs | ⟨s, hs⟩
        · rw [hs] at hm1
          simp at hm1
        · rw [hs] at hm1
          simp at hm1
          exact lemPathNeName i j hm1
        · rw [hs] at hm1
          simp at hm1
          exact lemPathNeDup i s hm1
      · rcases lemTypeCheckShape i j (jsGetW (JsValue.obj ps) "type") with hs | hs
        · rw [hs] at hm2
          simp at hm2
        · rw [hs] at hm2
          simp at hm2
          exact lemPathNeType i j hm2
      · exact ih (j + 1) _ hm3
    | undef =>
      intro hm
      rcases List.mem_cons.mp hm with h | h
      · exact lemPathNeFieldObj i j h
      · exact ih (j + 1) seen h
    | null =>
      intro hm
      rcases List.mem_cons.mp hm with h | h
      · exact lemPathNeFieldObj i j h
      · exact ih (j + 1) seen h
    | bool b =>
      intro hm
      rcases List.mem_cons.mp hm with h | h
      · exact lemPathNeFieldObj i j h
      · exact ih (j + 1) seen h
    | num n =>
      intro hm
      rcases List.mem_cons.mp hm with h | h
      · exact lemPathNeFieldObj i j h
      · exact ih (j + 1) seen h
    | nonfinite nf =>
      intro hm
      rcases List.mem_cons.mp hm with h | h
      · exact lemPathNeFieldObj i j h
      · exact ih (j + 1) seen h
    | str s =>
      intro hm
      rcases List.mem_cons.mp hm with h | h
      · exact lemPathNeFieldObj i j h
      · exact ih (j + 1) seen h
    | arr xs =>
      intro hm
      rcases List.mem_cons.mp hm with h | h
      · exact lemPathNeFieldObj i j h
      · exact ih (j + 1) seen h

/-- The fields part of one entry never emits the invalid-path message. -/
theorem lemPathNotInFieldsCheck (i : Nat) (fv : JsValue) :
    pathMsg i ∉ fieldsCheck i fv := by
  unfold fieldsCheck
  cases fv with
  | arr fl =>
    cases fl with
    | nil =>
      intro hm
      simp at hm
      exact lemPathNeFields i hm
    | cons f fs => exact lemPathNotInGo i (f :: fs) 0 []
  | undef =>
    intro hm
    simp at hm
    exact lemPathNeFields i hm
  | null =>
    intro hm
    simp at hm
    exact lemPathNeFields i hm
  | bool b =>
    intro hm
    simp at hm
    exact lemPathNeFields i hm
  | num n =>
    intro hm
    simp at hm
    exact lemPathNeFields i hm
  | nonfinite nf =>
    intro hm
    simp at hm
    exact lemPathNeFields i hm
  | str s =>
    intro hm
    simp at hm
    exact lemPathNeFields i hm
  | obj ps =>
    intro hm
    simp at hm
    exact lemPathNeFields i hm

/-- Claim C9 (amended): for a config entry that is an object, a `path` that
is a string with non-empty trimmed content yields no invalid-path error;
when `path` is not a string or trims to empty (including whitespace-only
non-empty strings, which the original claim wrongly admitted), exactly one
invalid-path error is emitted; in both cases checking continues to the
entry's `fields` (the fields part of the output is the same computation on
the `fields` member either way). -/
theorem path_check_one_error_and_continue (i : Nat) (ps : List (String × JsValue)) :
    (pathOkB (.obj ps) = true →
      entryErrors i (.obj ps) = fieldsCheck i (jsGetW (.obj ps) "fields") ∧
      pathMsg i ∉ entryErrors i (.obj ps)) ∧
    (pathOkB (.obj ps) = false →
      entryErrors i (.obj ps) = pathMsg i :: fieldsCheck i (jsGetW (.obj ps) "fields") ∧
      (entryErrors i (.obj ps)).count (pathMsg i) = 1) := by
  constructor
  · intro h
    unfold pathOkB at h
    have hE : entryErrors i (.obj ps) = fieldsCheck i (jsGetW (.obj ps) "fields") := by
      unfold entryErrors
      cases hp : jsGetW (JsValue.obj ps) "path" with
      | str s =>
        rw [hp] at h
        simp at h
        simp [h]
      | undef => rw [hp] at h; simp at h
      | null => rw [hp] at h; simp at h
      | bool b => rw [hp] at h; simp at h
      | num n => rw [hp] at h; simp at h
      | nonfinite nf => rw [hp] at h; simp at h
      | arr xs => rw [hp] at h; simp at h
      | obj ps2 => rw [hp] at h; simp at h
    exact ⟨hE, hE ▸ lemPathNotInFieldsCheck i _⟩
  · intro h
    unfold pathOkB at h
    have hE : entryErrors i (.obj ps) =
        pathMsg i :: fieldsCheck i (jsGetW (.obj ps) "fields") := by
      unfold entryErrors
      cases hp : jsGetW (JsValue.obj ps) "path" with
      | str s =>
        rw [hp] at h
        simp at h
        simp [h]
      | undef => simp
      | null => simp
      | bool b => simp
      | num n => simp
      | nonfinite nf => simp
      | arr xs => simp
      | obj ps2 => simp
    refine ⟨hE, ?_⟩
    rw [hE, List.count_cons]
    have h0 : (fieldsCheck i (jsGetW (JsValue.obj ps) "fields")).count (pathMsg i) = 0 :=
      List.count_eq_zero.mpr (lemPathNotInFieldsCheck i _)
    simp [h0]

/-- Witness for C9: a valid-path entry yields only its fields-part errors; a
path-less entry yields exactly one invalid-path error in front of them. -/
theorem path_check_one_error_and_continue_w :
    entryErrors 0 (.obj [("path", .str "a.json"), ("fields", .str "nope")]) =
      fieldsCheck 0 (.str "nope") ∧
    entryErrors 0 (.obj [("fields", .str "nope")]) =
      pathMsg 0 :: fieldsCheck 0 (.str "nope") ∧
    (entryErrors 0 (.obj [("fields", .str "nope")])).count (pathMsg 0) = 1 := by
  have h1 := (path_check_one_error_and_continue 0
    [("path", .str "a.json"), ("fields", .str "nope")]).1 (by decide)
  have h2 := (path_check_one_error_and_continue 0 [("fields", .str "nope")]).2 rfl
  exact ⟨h1.1, h2.1, h2.2⟩

/-- The FileValidator guard: any prior error makes the step return the
context unchanged. -/
theorem lemValidateFilesSkipOnErr (fsys : FileSys) (cap : AddressCap) (ctx : Ctx)
    (h : ctx.errors ≠ []) : validateFilesStep fsys cap ctx = .ok ctx := by
  unfold validateFilesStep
  cases hE : ctx.errors with
  | nil => exact absurd hE h
  | cons a l => simp [hE, List.isEmpty]

/-- The Normalizer guard: any prior error makes the step return the context
unchanged. -/
theorem lemNormalizeSkipOnErr (cap : AddressCap) (ctx : Ctx)
    (h : ctx.errors ≠ []) : normalizeStep cap ctx = .ok ctx := by
  unfold normalizeStep
  cases hE : ctx.errors with
  | nil => exact absurd hE h
  | cons a l => simp [hE]

/-- Unfolding one completed step of the pipeline runner. -/
theorem lemRunPipelineConsOk {s : Ctx → Except String Ctx}
    {rest : List (Ctx → Except String Ctx)} {ctx c2 : Ctx}
    (h : s ctx = .ok c2) : runPipeline (s :: rest) ctx = runPipeline rest c2 := by
  have he : runPipeline (s :: rest) ctx =
      match s ctx with
      | .ok c3 => runPipeline rest c3
      | .error e => .error e := rfl
  rw [he, h]

/-- Counterexample for C7 as stated: at a concrete file system whose config
read fails, the run records two messages for the load failure — the wrapped
load error and the distinct `Config failed to load` marker — not exactly
one. -/
theorem config_load_single_error_cex :
    (runAll fsys0 cap0 (createContext "root" "cp")).map (fun c => c.errors) =
      .ok ["[config] ENOENT", "[config] Config failed to load"] ∧
    (runAll fsys0 cap0 (createContext "root" "cp")).map (fun c => c.errors.length) ≠
      .ok 1 := by
  refine ⟨rfl, ?_⟩
  intro hc
  rw [show (runAll fsys0 cap0 (createContext "root" "cp")).map
      (fun c => c.errors.length) = Except.ok 2 from rfl] at hc
  exact absurd (Except.ok.inj hc) (by decide)

/-- Claim C7 (amended): when the config bytes are unreadable or unparseable,
the run is fatal — no file-level check occurs (no file-group is recorded and
both counters stay zero) and the Reporter signals failure — and the load
step itself records exactly one message; config validation adds the one
distinct `Config failed to load` marker, so the final list holds exactly
these two messages. -/
theorem config_load_failure_fatal (fsys : FileSys) (cap : AddressCap)
    (root cp m : String) (h : readJson fsys cp = .error m) :
    runAll fsys cap (createContext root cp) =
      .ok { rootDir := root, configPath := cp,
            errors := [cfgLoadErrMsg m, cfgLoadFailMsg], config := JsValue.undef,
            statsFilesChecked := 0, statsItemsChecked := 0, loadedFiles := [] } ∧
    (finalizeStep
      { rootDir := root, configPath := cp,
        errors := [cfgLoadErrMsg m, cfgLoadFailMsg], config := JsValue.undef,
        statsFilesChecked := 0, statsItemsChecked := 0,
        loadedFiles := [] }).1 = false := by
  have l1 : loadConfigStep fsys (createContext root cp) =
      { rootDir := root, configPath := cp, errors := [cfgLoadErrMsg m],
        config := JsValue.undef, statsFilesChecked := 0, statsItemsChecked := 0,
        loadedFiles := [] } := by
    unfold loadConfigStep createContext
    simp [h]
  have l2 : validateConfigStep
      { rootDir := root, configPath := cp, errors := [cfgLoadErrMsg m],
        config := JsValue.undef, statsFilesChecked := 0, statsItemsChecked := 0,
        loadedFiles := [] } =
      { rootDir := root, configPath := cp,
        errors := [cfgLoadErrMsg m, cfgLoadFailMsg], config := JsValue.undef,
        statsFilesChecked := 0, statsItemsChecked := 0, loadedFiles := [] } := rfl
  have l3 : validateFilesStep fsys cap
      { rootDir := root, configPath := cp,
        errors := [cfgLoadErrMsg m, cfgLoadFailMsg], config := JsValue.undef,
        statsFilesChecked := 0, statsItemsChecked := 0, loadedFiles := [] } =
      .ok
        { rootDir := root, configPath := cp,
          errors := [cfgLoadErrMsg m, cfgLoadFailMsg], config := JsValue.undef,
          statsFilesChecked := 0, statsItemsChecked := 0, loadedFiles := [] } :=
    lemValidateFilesSkipOnErr _ _ _ (List.cons_ne_nil _ _)
  have l4 : normalizeStep cap
      { rootDir := root, configPath := cp,
        errors := [cfgLoadErrMsg m, cfgLoadFailMsg], config := JsValue.undef,
        statsFilesChecked := 0, statsItemsChecked := 0, loadedFiles := [] } =
      .ok
        { rootDir := root, configPath := cp,
          errors := [cfgLoadErrMsg m, cfgLoadFailMsg], config := JsValue.undef,
          statsFilesChecked := 0, statsItemsChecked := 0, loadedFiles := [] } :=
    lemNormalizeSkipOnErr _ _ (List.cons_ne_nil _ _)
  constructor
  · simp only [runAll, pipelineSteps, runPipeline, l1, l2, l3, l4]
  · rfl

/-- Witness for the amended C7 at a concrete failing file system. -/
theorem config_load_failure_fatal_w :
    runAll fsys0 cap0 (createContext "root" "cp") =
      .ok { rootDir := "root", configPath := "cp",
            errors := [cfgLoadErrMsg "ENOENT", cfgLoadFailMsg], config := JsValue.undef,
            statsFilesChecked := 0, statsItemsChecked := 0, loadedFiles := [] } :=
  (config_load_failure_fatal fsys0 cap0 "root" "cp" "ENOENT" rfl).1

/-- The duplicate scan is empty on duplicate-free names disjoint from the
seen set. -/
theorem lemDupsOfNil : ∀ (ns seen : List String), nodupB ns = true →
    (∀ s, s ∈ ns → s ∉ seen) → dupsOf seen ns = [] := by
  intro ns
  induction ns with
  | nil => intro seen _ _; rfl
  | cons a ts ih =>
    intro seen hnd hdisj
    unfold dupsOf
    have ha : a ∉ seen := hdisj a (List.mem_cons_self a ts)
    have ha' : ¬(seen.contains a = true) := by simpa using ha
    rw [if_neg ha']
    unfold nodupB at hnd
    rw [Bool.and_eq_true] at hnd
    apply ih (a :: seen) hnd.2
    intro s hs hmem
    rcases List.mem_cons.mp hmem with he | hseen
    · subst he
      have hnotin : s ∉ ts := by simpa using hnd.1
      exact hnotin hs
    · exact hdisj s (List.mem_cons_of_mem a hs) hseen

/-- Destructor for a config entry passing every entry-level check. -/
theorem entryRuleOK_elim (e : JsValue) (h : entryRuleOK e = true) :
    ∃ ps fl, e = .obj ps ∧ pathOkB e = true ∧ jsGetW e "fields" = .arr fl ∧
      fl ≠ [] ∧ fl.all fieldValidB = true ∧ nodupB (namesOf fl) = true := by
  cases e with
  | undef => simp [entryRuleOK] at h
  | null => simp [entryRuleOK] at h
  | bool b => simp [entryRuleOK] at h
  | num n => simp [entryRuleOK] at h
  | nonfinite nf => simp [entryRuleOK] at h
  | str s => simp [entryRuleOK] at h
  | arr xs => simp [entryRuleOK] at h
  | obj ps =>
    unfold entryRuleOK at h
    rw [Bool.and_eq_true] at h
    obtain ⟨h1, h2⟩ := h
    cases hf : jsGetW (JsValue.obj ps) "fields" with
    | arr fl =>
      rw [hf] at h2
      rw [Bool.and_eq_true, Bool.and_eq_true] at h2
      obtain ⟨⟨hne, hall⟩, hnd⟩ := h2
      refine ⟨ps, fl, rfl, h1, rfl, ?_, hall, hnd⟩
      intro he
      subst he
      simp at hne
    | undef => rw [hf] at h2; simp at h2
    | null => rw [hf] at h2; simp at h2
    | bool b => rw [hf] at h2; simp at h2
    | num n => rw [hf] at h2; simp at h2
    | nonfinite nf => rw [hf] at h2; simp at h2
    | str s => rw [hf] at h2; simp at h2
    | obj ps2 => rw [hf] at h2; simp at h2

/-- Destructor for a well-formed schema config. -/
theorem configOK_elim (cfg : JsValue) (h : configOK cfg = true) :
    ∃ ps fl, cfg = .obj ps ∧ jsGetW cfg "files" = .arr fl ∧ fl ≠ [] ∧
      fl.all entryRuleOK = true := by
  cases cfg with
  | undef => simp [configOK] at h
  | null => simp [configOK] at h
  | bool b => simp [configOK] at h
  | num n => simp [configOK] at h
  | nonfinite nf => simp [configOK] at h
  | str s => simp [configOK] at h
  | arr xs => simp [configOK] at h
  | obj ps =>
    unfold configOK at h
    cases hf : jsGetW (JsValue.obj ps) "files" with
    | arr fl =>
      rw [hf] at h
      rw [Bool.and_eq_true] at h
      refine ⟨ps, fl, rfl, rfl, ?_, h.2⟩
      intro he
      subst he
      simp at h
    | undef => rw [hf] at h; simp at h
    | null => rw [hf] at h; simp at h
    | bool b => rw [hf] at h; simp at h
    | num n => rw [hf] at h; simp at h
    | nonfinite nf => rw [hf] at h; simp at h
    | str s => rw [hf] at h; simp at h
    | obj ps2 => rw [hf] at h; simp at h

/-- The per-field loop is silent on valid, duplicate-free fields. -/
theorem lemFieldsGoNil (i : Nat) (fl : List JsValue)
    (h : fl.all fieldValidB = true) (hnd : nodupB (namesOf fl) = true) :
    fieldsErrorsGo i 0 [] fl = [] := by
  rw [lemFieldsGoDups i fl h 0 [],
      lemDupsOfNil (namesOf fl) [] hnd (fun s _ hc => List.not_mem_nil s hc)]
  rfl

/-- One valid config entry contributes no error. -/
theorem lemEntryErrorsNil (i : Nat) (e : JsValue) (h : entryRuleOK e = true) :
    entryErrors i e = [] := by
  obtain ⟨ps, fl, he, hpath, hf, hne, hall, hnd⟩ := entryRuleOK_elim e h
  subst he
  have hpe : (match jsGetW (JsValue.obj ps) "path" with
      | .str s => if jsTrimEmpty s then [pathMsg i] else []
      | _ => [pathMsg i]) = ([] : List String) := by
    unfold pathOkB at hpath
    cases hp : jsGetW (JsValue.obj ps) "path" with
    | str s =>
      rw [hp] at hpath
      simp at hpath
      simp [hpath]
    | undef => rw [hp] at hpath; simp at hpath
    | null => rw [hp] at hpath; simp at hpath
    | bool b => rw [hp] at hpath; simp at hpath
    | num n => rw [hp] at hpath; simp at hpath
    | nonfinite nf => rw [hp] at hpath; simp at hpath
    | arr xs => rw [hp] at hpath; simp at hpath
    | obj ps2 => rw [hp] at hpath; simp at hpath
  cases fl with
  | nil => exact absurd rfl hne
  | cons f fs =>
    unfold entryErrors
    simp only [hpe, hf, fieldsCheck]
    simp [lemFieldsGoNil i (f :: fs) hall hnd]

/-- The config entries loop is silent on all-valid entries. -/
theorem lemEntriesErrorsNil : ∀ (fl : List JsValue) (i : Nat),
    fl.all entryRuleOK = true → entriesErrors i fl = [] := by
  intro fl
  induction fl with
  | nil => intro i _; rfl
  | cons e es ih =>
    intro i h
    rw [List.all_cons, Bool.and_eq_true] at h
    unfold entriesErrors
    rw [lemEntryErrorsNil i e h.1, ih (i + 1) h.2]
    rfl

/-- A well-formed config produces no config-validation error. -/
theorem lemConfigErrorsNil (cfg : JsValue) (h : configOK cfg = true) :
    configErrors cfg = [] := by
  obtain ⟨ps, fl, he, hf, hne, hall⟩ := configOK_elim cfg h
  subst he
  cases fl with
  | nil => exact absurd rfl hne
  | cons e es =>
    unfold configErrors
    simp [hf, lemEntriesErrorsNil (e :: es) 0 hall]

/-- Destructor for a record field passing presence, type, and
canonicalizability checks. -/
theorem fieldValueOK_elim (cap : AddressCap) (item f : JsValue)
    (h : fieldValueOK cap item f = true) :
    hasOwnProp item (jsToString (jsGetW f "name")) = true ∧
    ∃ t pred, jsGetW f "type" = .str t ∧ typeValidator cap t = some pred ∧
      pred (jsGetW item (jsToString (jsGetW f "name"))) = true ∧
      canonReq cap t (jsGetW item (jsToString (jsGetW f "name"))) = true := by
  unfold fieldValueOK at h
  rw [Bool.and_eq_true] at h
  obtain ⟨h1, h2⟩ := h
  refine ⟨h1, ?_⟩
  cases ht : jsGetW f "type" with
  | str t =>
    simp only [ht] at h2
    cases hv : typeValidator cap t with
    | some pred =>
      simp only [hv] at h2
      rw [Bool.and_eq_true] at h2
      exact ⟨t, pred, rfl, hv, h2.1, h2.2⟩
    | none => simp only [hv] at h2; simp at h2
  | undef => rw [ht] at h2; simp at h2
  | null => rw [ht] at h2; simp at h2
  | bool b => rw [ht] at h2; simp at h2
  | num n => rw [ht] at h2; simp at h2
  | nonfinite nf => rw [ht] at h2; simp at h2
  | arr xs => rw [ht] at h2; simp at h2
  | obj ps => rw [ht] at h2; simp at h2

/-- On valid field rules the `fields.map` of names completes. -/
theorem lemFieldNamesOf : ∀ (fl : List JsValue), fl.all fieldValidB = true →
    fieldNamesOf fl = .ok (fl.map (fun f => jsGetW f "name")) := by
  intro fl
  induction fl with
  | nil => intro _; rfl
  | cons f fs ih =>
    intro h
    rw [List.all_cons, Bool.and_eq_true] at h
    obtain ⟨ps, s, t, hfe, hn, _, _, _⟩ := fieldValidB_elim f h.1
    subst hfe
    unfold fieldNamesOf
    simp [ih h.2]

/-- The per-field type checks are silent on a conforming record. -/
theorem lemTypeCheckFieldsNil (cap : AddressCap) (file : String) (k : Nat)
    (item : JsValue) : ∀ (fl : List JsValue), fl.all fieldValidB = true →
    fl.all (fieldValueOK cap item) = true →
    typeCheckFields cap file k item fl = .ok [] := by
  intro fl
  induction fl with
  | nil => intro _ _; rfl
  | cons f fs ih =>
    intro hv ho
    rw [List.all_cons, Bool.and_eq_true] at hv ho
    obtain ⟨ps, s, t0, hfe, hn, _, ht0, hcont⟩ := fieldValidB_elim f hv.1
    obtain ⟨hhas, t, pred, ht, hvp, hpred, _⟩ := fieldValueOK_elim cap item f ho.1
    subst hfe
    unfold typeCheckFields
    simp [ht, hvp, hpred, ih hv.2 ho.2]

/-- A conforming record contributes no error in the FileValidator. -/
theorem lemValidateItemNil (cap : AddressCap) (file : String) (k : Nat)
    (fl : List JsValue) (item : JsValue)
    (hfl : fl.all fieldValidB = true) (hit : itemOK cap fl item = true) :
    validateItem cap file (.arr fl) k item = .ok [] := by
  cases item with
  | obj ps =>
    have hit2 : fl.all (fieldValueOK cap (JsValue.obj ps)) = true := hit
    have hnames := lemFieldNamesOf fl hfl
    have hmiss : (fl.map (fun f => jsGetW f "name")).filter
        (fun n => !hasOwnProp (JsValue.obj ps) (jsToString n)) = [] := by
      rw [List.filter_eq_nil]
      intro n hn
      rcases List.mem_map.mp hn with ⟨f, hf, rfl⟩
      have hok : fieldValueOK cap (JsValue.obj ps) f = true :=
        List.all_eq_true.mp hit2 f hf
      obtain ⟨hhas, _⟩ := fieldValueOK_elim cap _ f hok
      simp [hhas]
    unfold validateItem
    simp only [hnames, hmiss]
    simp [lemTypeCheckFieldsNil cap file k (JsValue.obj ps) fl hfl hit2]
  | undef => simp [itemOK] at hit
  | null => simp [itemOK] at hit
  | bool b => simp [itemOK] at hit
  | num n => simp [itemOK] at hit
  | nonfinite nf => simp [itemOK] at hit
  | str s => simp [itemOK] at hit
  | arr xs => simp [itemOK] at hit

/-- The record loop is silent on a conforming data file. -/
theorem lemValidateItemsNil (cap : AddressCap) (file : String)
    (fl : List JsValue) : ∀ (items : List JsValue) (k : Nat),
    fl.all fieldValidB = true → items.all (itemOK cap fl) = true →
    validateItems cap file (.arr fl) k items = .ok [] := by
  intro items
  induction items with
  | nil => intro k _ _; rfl
  | cons it its ih =>
    intro k hv ha
    rw [List.all_cons, Bool.and_eq_true] at ha
    unfold validateItems
    simp [lemValidateItemNil cap file k fl it hv ha.1, ih (k + 1) hv ha.2]

/-- A valid entry over a conforming data file contributes no error, records
its file-group, and counts its records. -/
theorem lemValidateFileEntryOk (fsys : FileSys) (cap : AddressCap)
    (root : String) (e : JsValue) (hr : entryRuleOK e = true)
    (hd : entryDataOK fsys cap root e = true) :
    ∃ f items fl, jsGetW e "path" = .str f ∧ jsGetW e "fields" = .arr fl ∧
      validateFileEntry fsys cap root e =
        .ok ([], some ⟨f, items, .arr fl⟩, items.length) ∧
      fl.all fieldValidB = true ∧ nodupB (namesOf fl) = true ∧
      items.all (itemOK cap fl) = true := by
  obtain ⟨ps, fl, he, hpath, hf, hne, hall, hnd⟩ := entryRuleOK_elim e hr
  subst he
  unfold entryDataOK at hd
  cases hp : jsGetW (JsValue.obj ps) "path" with
  | str file =>
    simp only [hp] at hd
    rw [Bool.and_eq_true] at hd
    obtain ⟨hex, hd2⟩ := hd
    cases hr2 : readJson fsys (joinPath root file) with
    | ok d =>
      simp only [hr2] at hd2
      cases d with
      | arr items =>
        simp only [hf] at hd2
        refine ⟨file, items, fl, rfl, hf, ?_, hall, hnd, hd2⟩
        unfold validateFileEntry
        simp [hp, hex, hr2, hf,
          lemValidateItemsNil cap file fl items 0 hall hd2]
      | undef => simp at hd2
      | null => simp at hd2
      | bool b => simp at hd2
      | num n => simp at hd2
      | nonfinite nf => simp at hd2
      | str s => simp at hd2
      | obj ps2 => simp at hd2
    | error m =>
      simp only [hr2] at hd2
      simp at hd2
  | undef => simp only [hp] at hd; simp at hd
  | null => simp only [hp] at hd; simp at hd
  | bool b => simp only [hp] at hd; simp at hd
  | num n => simp only [hp] at hd; simp at hd
  | nonfinite nf => simp only [hp] at hd; simp at hd
  | arr xs => simp only [hp] at hd; simp at hd
  | obj ps2 => simp only [hp] at hd; simp at hd

/-- The file loop over valid entries with conforming data files is silent
and records file-groups that are clean to normalize. -/
theorem lemValidateFilesGoOk (fsys : FileSys) (cap : AddressCap)
    (root : String) : ∀ (es : List JsValue),
    es.all entryRuleOK = true → es.all (entryDataOK fsys cap root) = true →
    ∃ out, validateFilesGo fsys cap root es = .ok out ∧ out.errs = [] ∧
      out.loaded.all (loadedOK cap) = true := by
  intro es
  induction es with
  | nil => intro _ _; exact ⟨⟨[], [], 0, 0⟩, rfl, rfl, rfl⟩
  | cons e es2 ih =>
    intro hr hd
    rw [List.all_cons, Bool.and_eq_true] at hr hd
    obtain ⟨f, items, fl, hp, hf, hentry, hall, hnd, hitems⟩ :=
      lemValidateFileEntryOk fsys cap root e hr.1 hd.1
    obtain ⟨out, hgo, herrs, hload⟩ := ih hr.2 hd.2
    refine ⟨⟨[] ++ out.errs,
      (some (⟨f, items, .arr fl⟩ : LoadedFile)).toList ++ out.loaded,
      out.nFiles + 1, items.length + out.nItems⟩, ?_, ?_, ?_⟩
    · unfold validateFilesGo
      simp only [hentry, hgo]
    · simp [herrs]
    · simp [loadedOK, hall, hnd, hitems, hload]

/-- Setting one key leaves lookups of other keys unchanged. -/
theorem lemLookupSetPropNe (ps : List (String × JsValue)) (k k' : String)
    (x : JsValue) (h : k ≠ k') :
    lookupProp (setProp ps k x) k' = lookupProp ps k' := by
  induction ps with
  | nil => simp [setProp, lookupProp, h]
  | cons p ps2 ih =>
    obtain ⟨pk, pv⟩ := p
    unfold setProp
    by_cases hpk : pk = k
    · subst hpk
      simp [lookupProp, h]
    · simp only [hpk, if_false]
      unfold lookupProp
      by_cases hpk' : pk = k'
      · simp [hpk']
      · simp [hpk', ih]

/-- Setting one key leaves key-presence of other keys unchanged. -/
theorem lemAnySetProp (ps : List (String × JsValue)) (k k' : String)
    (x : JsValue) (h : k ≠ k') :
    (setProp ps k x).any (fun p => p.1 == k') = ps.any (fun p => p.1 == k') := by
  induction ps with
  | nil => simp [setProp, h]
  | cons p ps2 ih =>
    obtain ⟨pk, pv⟩ := p
    unfold setProp
    by_cases hpk : pk = k
    · subst hpk
      simp
    · simp [hpk, ih]

/-- The assignment `item[k] = x` leaves reads of other keys unchanged. -/
theorem lemJsGetWSetOwnNe (item : JsValue) (k k' : String) (x : JsValue)
    (h : k ≠ k') : jsGetW (item.setOwn k x) k' = jsGetW item k' := by
  cases item with
  | obj ps => simp [JsValue.setOwn, jsGetW, lemLookupSetPropNe ps k k' x h]
  | undef => rfl
  | null => rfl
  | bool b => rfl
  | num n => rfl
  | nonfinite nf => rfl
  | str s => rfl
  | arr xs => rfl

/-- The assignment `item[k] = x` leaves presence of other keys unchanged. -/
theorem lemHasOwnSetOwnNe (item : JsValue) (k k' : String) (x : JsValue)
    (h : k ≠ k') : hasOwnProp (item.setOwn k x) k' = hasOwnProp item k' := by
  cases item with
  | obj ps => simp [JsValue.setOwn, hasOwnProp, lemAnySetProp ps k k' x h]
  | undef => rfl
  | null => rfl
  | bool b => rfl
  | num n => rfl
  | nonfinite nf => rfl
  | str s => rfl
  | arr xs => rfl

/-- Conformance of a field depends on the record only through the field's
own key. -/
theorem lemFieldValueOKStable (cap : AddressCap) (i1 i2 g : JsValue)
    (hh : hasOwnProp i2 (jsToString (jsGetW g "name")) =
          hasOwnProp i1 (jsToString (jsGetW g "name")))
    (hv : jsGetW i2 (jsToString (jsGetW g "name")) =
          jsGetW i1 (jsToString (jsGetW g "name"))) :
    fieldValueOK cap i2 g = fieldValueOK cap i1 g := by
  unfold fieldValueOK
  rw [hh, hv]

/-- One Normalizer field step on a valid, conforming field appends no error
and touches only the field's own key. -/
theorem lemNormFieldClean (cap : AddressCap) (file : String) (k : Nat)
    (item f : JsValue) (hv : fieldValidB f = true)
    (ho : fieldValueOK cap item f = true) :
    ∃ item2, normField cap file k item f = (item2, []) ∧
      ∀ k', k' ≠ jsToString (jsGetW f "name") →
        jsGetW item2 k' = jsGetW item k' ∧
        hasOwnProp item2 k' = hasOwnProp item k' := by
  obtain ⟨ps, s, t0, hfe, hn, htr, ht0, hcont⟩ := fieldValidB_elim f hv
  obtain ⟨hhas, t, pred, ht, hvp, hpred, hcanon⟩ := fieldValueOK_elim cap item f ho
  have hteq : t0 = t := by
    rw [ht0] at ht
    injection ht
  subst hteq
  have ht7 : t0 ∈ allowedTypes := by simpa using hcont
  simp only [allowedTypes, List.mem_cons, List.not_mem_nil, or_false] at ht7
  rcases ht7 with h | h | h | h | h | h | h
  · subst h
    refine ⟨item, ?_, fun k' _ => ⟨rfl, rfl⟩⟩
    unfold normField
    simp [ht]
  · subst h
    refine ⟨item, ?_, fun k' _ => ⟨rfl, rfl⟩⟩
    unfold normField
    simp [ht]
  · subst h
    refine ⟨item, ?_, fun k' _ => ⟨rfl, rfl⟩⟩
    unfold normField
    simp [ht]
  · subst h
    have hce : (cap.getAddress (jsGetW item (jsToString (jsGetW f "name")))).isSome
        = true := by
      simpa [canonReq] using hcanon
    obtain ⟨c, hc⟩ := Option.isSome_iff_exists.mp hce
    refine ⟨item.setOwn (jsToString (jsGetW f "name")) (.str c), ?_, ?_⟩
    · unfold normField
      simp [ht, hc]
    · intro k' hk
      exact ⟨lemJsGetWSetOwnNe item _ k' (.str c) (fun hx => hk hx.symm),
             lemHasOwnSetOwnNe item _ k' (.str c) (fun hx => hk hx.symm)⟩
  · subst h
    refine ⟨item, ?_, fun k' _ => ⟨rfl, rfl⟩⟩
    unfold normField
    simp [ht]
  · subst h
    refine ⟨item, ?_, fun k' _ => ⟨rfl, rfl⟩⟩
    unfold normField
    simp [ht]
  · subst h
    cases hval : jsGetW item (jsToString (jsGetW f "name")) with
    | null =>
      refine ⟨item, ?_, fun k' _ => ⟨rfl, rfl⟩⟩
      unfold normField
      simp [ht, hval]
    | undef =>
      rw [hval] at hcanon
      have hce : (cap.getAddress JsValue.undef).isSome = true := by
        simpa [canonReq] using hcanon
      obtain ⟨c, hc⟩ := Option.isSome_iff_exists.mp hce
      refine ⟨item.setOwn (jsToString (jsGetW f "name")) (.str c), ?_, ?_⟩
      · unfold normField
        simp [ht, hval, hc]
      · intro k' hk
        exact ⟨lemJsGetWSetOwnNe item _ k' (.str c) (fun hx => hk hx.symm),
               lemHasOwnSetOwnNe item _ k' (.str c) (fun hx => hk hx.symm)⟩
    | bool b =>
      rw [hval] at hcanon
      have hce : (cap.getAddress (JsValue.bool b)).isSome = true := by
        simpa [canonReq] using hcanon
      obtain ⟨c, hc⟩ := Option.isSome_iff_exists.mp hce
      refine ⟨item.setOwn (jsToString (jsGetW f "name")) (.str c), ?_, ?_⟩
      · unfold normField
        simp [ht, hval, hc]
      · intro k' hk
        exact ⟨lemJsGetWSetOwnNe item _ k' (.str c) (fun hx => hk hx.symm),
               lemHasOwnSetOwnNe item _ k' (.str c) (fun hx => hk hx.symm)⟩
    | num n =>
      rw [hval] at hcanon
      have hce : (cap.getAddress (JsValue.num n)).isSome = true := by
        simpa [canonReq] using hcanon
      obtain ⟨c, hc⟩ := Option.isSome_iff_exists.mp hce
      refine ⟨item.setOwn (jsToString (jsGetW f "name")) (.str c), ?_, ?_⟩
      · unfold normField
        simp [ht, hval, hc]
      · intro k' hk
        exact ⟨lemJsGetWSetOwnNe item _ k' (.str c) (fun hx => hk hx.symm),
               lemHasOwnSetOwnNe item _ k' (.str c) (fun hx => hk hx.symm)⟩
    | nonfinite nf =>
      rw [hval] at hcanon
      have hce : (cap.getAddress (JsValue.nonfinite nf)).isSome = true := by
        simpa [canonReq] using hcanon
      obtain ⟨c, hc⟩ := Option.isSome_iff_exists.mp hce
      refine ⟨item.setOwn (jsToString (jsGetW f "name")) (.str c), ?_, ?_⟩
      · unfold normField
        simp [ht, hval, hc]
      · intro k' hk
        exact ⟨lemJsGetWSetOwnNe item _ k' (.str c) (fun hx => hk hx.symm),
               lemHasOwnSetOwnNe item _ k' (.str c) (fun hx => hk hx.symm)⟩
    | str s2 =>
      rw [hval] at hcanon
      have hce : (cap.getAddress (JsValue.str s2)).isSome = true := by
        simpa [canonReq] using hcanon
      obtain ⟨c, hc⟩ := Option.isSome_iff_exists.mp hce
      refine ⟨item.setOwn (jsToString (jsGetW f "name")) (.str c), ?_, ?_⟩
      · unfold normField
        simp [ht, hval, hc]
      · intro k' hk
        exact ⟨lemJsGetWSetOwnNe item _ k' (.str c) (fun hx => hk hx.symm),
               lemHasOwnSetOwnNe item _ k' (.str c) (fun hx => hk hx.symm)⟩
    | arr xs =>
      rw [hval] at hcanon
      have hce : (cap.getAddress (JsValue.arr xs)).isSome = true := by
        simpa [canonReq] using hcanon
      obtain ⟨c, hc⟩ := Option.isSome_iff_exists.mp hce
      refine ⟨item.setOwn (jsToString (jsGetW f "name")) (.str c), ?_, ?_⟩
      · unfold normField
        simp [ht, hval, hc]
      · intro k' hk
        exact ⟨lemJsGetWSetOwnNe item _ k' (.str c) (fun hx => hk hx.symm),
               lemHasOwnSetOwnNe item _ k' (.str c) (fun hx => hk hx.symm)⟩
    | obj ps2 =>
      rw [hval] at hcanon
      have hce : (cap.getAddress (JsValue.obj ps2)).isSome = true := by
        simpa [canonReq] using hcanon
      obtain ⟨c, hc⟩ := Option.isSome_iff_exists.mp hce
      refine ⟨item.setOwn (jsToString (jsGetW f "name")) (.str c), ?_, ?_⟩
      · unfold normField
        simp [ht, hval, hc]
      · intro k' hk
        exact ⟨lemJsGetWSetOwnNe item _ k' (.str c) (fun hx => hk hx.symm),
               lemHasOwnSetOwnNe item _ k' (.str c) (fun hx => hk hx.symm)⟩

/-- The Normalizer field loop is silent on a conforming record with
duplicate-free field names. -/
theorem lemNormFieldsClean (cap : AddressCap) (file : String) (k : Nat) :
    ∀ (fl : List JsValue) (item : JsValue),
      fl.all fieldValidB = true → nodupB (namesOf fl) = true →
      fl.all (fieldValueOK cap item) = true →
      ∃ item2, normFields cap file k item fl = .ok (item2, []) := by
  intro fl
  induction fl with
  | nil => intro item _ _ _; exact ⟨item, rfl⟩
  | cons f fs ih =>
    intro item hv hnd ho
    rw [List.all_cons, Bool.and_eq_true] at hv ho
    have hnd0 : (!(namesOf fs).contains (fieldNameStr f) && nodupB (namesOf fs))
        = true := hnd
    rw [Bool.and_eq_true] at hnd0
    have hcontf : (namesOf fs).contains (fieldNameStr f) = false := by
      simpa using hnd0.1
    obtain ⟨ps, s, t0, hfe, hn, htr, ht0, hcont⟩ := fieldValidB_elim f hv.1
    obtain ⟨item1, hnf, hpres⟩ := lemNormFieldClean cap file k item f hv.1 ho.1
    have hkey : jsToString (jsGetW f "name") = fieldNameStr f := by
      simp [fieldNameStr, hn, jsToString]
    have ho2 : fs.all (fieldValueOK cap item1) = true := by
      rw [List.all_eq_true]
      intro g hg
      have hgo := List.all_eq_true.mp ho.2 g hg
      have hgv := List.all_eq_true.mp hv.2 g hg
      obtain ⟨psg, sg, tg, hge, hgn, _, _, _⟩ := fieldValidB_elim g hgv
      have hkg : jsToString (jsGetW g "name") = fieldNameStr g := by
        simp [fieldNameStr, hgn, jsToString]
      have hne2 : jsToString (jsGetW g "name") ≠ jsToString (jsGetW f "name") := by
        rw [hkg, hkey]
        intro heq
        have hmem : fieldNameStr g ∈ namesOf fs := List.mem_map_of_mem fieldNameStr hg
        rw [heq] at hmem
        have hcontra : (namesOf fs).contains (fieldNameStr f) = true := by
          simpa using hmem
        rw [hcontf] at hcontra
        exact Bool.false_ne_true hcontra
      obtain ⟨hget, hhas⟩ := hpres _ hne2
      rw [lemFieldValueOKStable cap item item1 g hhas hget]
      exact hgo
    obtain ⟨item2, hrest⟩ := ih item1 hv.2 hnd0.2 ho2
    refine ⟨item2, ?_⟩
    subst hfe
    unfold normFields
    simp [hnf, hrest]

/-- The Normalizer record loop is silent on a conforming data file. -/
theorem lemNormItemsClean (cap : AddressCap) (file : String) (fl : List JsValue)
    (hall : fl.all fieldValidB = true) (hnd : nodupB (namesOf fl) = true) :
    ∀ (items : List JsValue) (k : Nat), items.all (itemOK cap fl) = true →
      ∃ items2, normItems cap file (.arr fl) k items = .ok (items2, []) := by
  intro items
  induction items with
  | nil => intro k _; exact ⟨[], rfl⟩
  | cons it its ih =>
    intro k ha
    rw [List.all_cons, Bool.and_eq_true] at ha
    cases it with
    | obj ps =>
      have ho : fl.all (fieldValueOK cap (JsValue.obj ps)) = true := ha.1
      obtain ⟨it2, hnf⟩ := lemNormFieldsClean cap file k fl (JsValue.obj ps) hall hnd ho
      obtain ⟨rest2, hrest⟩ := ih (k + 1) ha.2
      refine ⟨it2 :: rest2, ?_⟩
      unfold normItems
      simp [hnf, hrest]
    | undef => exfalso; have := ha.1; simp [itemOK] at this
    | null => exfalso; have := ha.1; simp [itemOK] at this
    | bool b => exfalso; have := ha.1; simp [itemOK] at this
    | num n => exfalso; have := ha.1; simp [itemOK] at this
    | nonfinite nf => exfalso; have := ha.1; simp [itemOK] at this
    | str s => exfalso; have := ha.1; simp [itemOK] at this
    | arr xs => exfalso; have := ha.1; simp [itemOK] at this

/-- The Normalizer file loop is silent on clean file-groups. -/
theorem lemNormFilesClean (cap : AddressCap) : ∀ (lfs : List LoadedFile),
    lfs.all (loadedOK cap) = true →
    ∃ lfs2, normFiles cap lfs = .ok (lfs2, []) := by
  intro lfs
  induction lfs with
  | nil => intro _; exact ⟨[], rfl⟩
  | cons lf rest ih =>
    intro h
    rw [List.all_cons, Bool.and_eq_true] at h
    obtain ⟨f0, d0, fv0⟩ := lf
    cases fv0 with
    | arr fl =>
      have h2 : ((fl.all fieldValidB && nodupB (namesOf fl)) &&
          d0.all (itemOK cap fl)) = true := h.1
      rw [Bool.and_eq_true, Bool.and_eq_true] at h2
      obtain ⟨⟨hall, hnd⟩, hdata⟩ := h2
      obtain ⟨items2, hni⟩ := lemNormItemsClean cap f0 fl hall hnd d0 0 hdata
      obtain ⟨rest2, hrest⟩ := ih h.2
      refine ⟨⟨f0, items2, .arr fl⟩ :: rest2, ?_⟩
      unfold normFiles normFile
      simp [hni, hrest]
    | undef => exfalso; have := h.1; simp [loadedOK] at this
    | null => exfalso; have := h.1; simp [loadedOK] at this
    | bool b => exfalso; have := h.1; simp [loadedOK] at this
    | num n => exfalso; have := h.1; simp [loadedOK] at this
    | nonfinite nf => exfalso; have := h.1; simp [loadedOK] at this
    | str s => exfalso; have := h.1; simp [loadedOK] at this
    | obj ps => exfalso; have := h.1; simp [loadedOK] at this

/-- On a clean context with clean file-groups the Normalizer completes with
no new error. -/
theorem lemNormalizeStepClean (cap : AddressCap) (ctx : Ctx)
    (he : ctx.errors = []) (hl : ctx.loadedFiles.all (loadedOK cap) = true) :
    ∃ ctx2, normalizeStep cap ctx = .ok ctx2 ∧ ctx2.errors = [] := by
  cases hlf : ctx.loadedFiles with
  | nil =>
    refine ⟨ctx, ?_, he⟩
    unfold normalizeStep
    simp [he, hlf]
  | cons lf rest =>
    have hl2 : (lf :: rest).all (loadedOK cap) = true := hlf ▸ hl
    obtain ⟨lfs2, hnf⟩ := lemNormFilesClean cap (lf :: rest) hl2
    refine ⟨{ ctx with loadedFiles := lfs2 }, ?_, by simp [he]⟩
    unfold normalizeStep
    simp [he, hlf, hnf]

/-- Claim C1: for every well-formed schema config and conforming data files
(with canonicalization succeeding on every address-typed value), the whole
pipeline run ends with an empty accumulated error list and the Reporter
signals success. -/
theorem clean_run_empty_errors_and_success (fsys : FileSys) (cap : AddressCap)
    (root cp : String) (cfg : JsValue) (fl : List JsValue)
    (hload : readJson fsys cp = .ok cfg)
    (hcfg : configOK cfg = true)
    (hfiles : jsGetW cfg "files" = .arr fl)
    (hdata : fl.all (entryDataOK fsys cap root) = true) :
    ∃ c2, runAll fsys cap (createContext root cp) = .ok c2 ∧ c2.errors = [] ∧
      finalizeStep c2 = (true, []) := by
  obtain ⟨ps, fl2, hcfge, hfiles2, hne2, hallE⟩ := configOK_elim cfg hcfg
  subst hcfge
  have hfl : fl2 = fl := by
    rw [hfiles] at hfiles2
    injection hfiles2 with h2
    exact h2.symm
  subst hfl
  have l1 : loadConfigStep fsys (createContext root cp) =
      { rootDir := root, configPath := cp, errors := [], config := .obj ps,
        statsFilesChecked := 0, statsItemsChecked := 0, loadedFiles := [] } := by
    unfold loadConfigStep createContext
    simp [hload]
  have l2 : validateConfigStep
      { rootDir := root, configPath := cp, errors := [], config := .obj ps,
        statsFilesChecked := 0, statsItemsChecked := 0, loadedFiles := [] } =
      { rootDir := root, configPath := cp, errors := [], config := .obj ps,
        statsFilesChecked := 0, statsItemsChecked := 0, loadedFiles := [] } := by
    unfold validateConfigStep
    simp [lemConfigErrorsNil (JsValue.obj ps) hcfg]
  obtain ⟨out, hgo, herrs, hloadok⟩ := lemValidateFilesGoOk fsys cap root fl2 hallE hdata
  have l3 : validateFilesStep fsys cap
      { rootDir := root, configPath := cp, errors := [], config := .obj ps,
        statsFilesChecked := 0, statsItemsChecked := 0, loadedFiles := [] } =
      .ok
        { rootDir := root, configPath := cp, errors := [], config := .obj ps,
          statsFilesChecked := out.nFiles, statsItemsChecked := out.nItems,
          loadedFiles := out.loaded } := by
    unfold validateFilesStep
    simp [JsValue.truthy, hfiles2, hgo, herrs]
  obtain ⟨ctx4, hnorm, herr4⟩ := lemNormalizeStepClean cap
    { rootDir := root, configPath := cp, errors := [], config := .obj ps,
      statsFilesChecked := out.nFiles, statsItemsChecked := out.nItems,
      loadedFiles := out.loaded } rfl (by simpa using hloadok)
  refine ⟨ctx4, ?_, herr4, by simp [finalizeStep, herr4]⟩
  simp only [runAll, pipelineSteps, runPipeline, l1, l2, l3, hnorm]

/-- Witness for C1: a concrete well-formed config and conforming data file
yield a clean, successful run. -/
theorem clean_run_empty_errors_and_success_w :
    ∃ c2, runAll fsysW cap0 (createContext "root" "cp") = .ok c2 ∧
      c2.errors = [] ∧ finalizeStep c2 = (true, []) :=
  clean_run_empty_errors_and_success fsysW cap0 "root" "cp" cfgW
    [.obj [("path", .str "a.json"),
      ("fields", .arr [.obj [("name", .str "id"), ("type", .str "string")]])]]
    rfl (by decide) rfl (by decide)

/-- Cancelling a common prefix of two equal strings. -/
theorem lemStrCancelLeft {p t1 t2 : String} (h : p ++ t1 = p ++ t2) : t1 = t2 := by
  have hd := congrArg String.data h
  rw [String.data_append, String.data_append] at hd
  exact String.ext (List.append_cancel_left hd)

/-- A duplicate-name message never coincides with any of the per-field
messages built from a `field #j` midsection. -/
theorem lemDupNeFieldSuffix (i j : Nat) (s T : String) :
    dupMsg i s ≠ entryPre i ++ (" field #" ++ toString j ++ T) := by
  intro h
  unfold dupMsg at h
  have ht := lemStrCancelLeft h
  have hd := congrArg String.data ht
  simp only [String.data_append] at hd
  rw [List.append_assoc, List.append_assoc] at hd
  have h3 := congrArg (List.take 3) hd
  rw [List.take_append_of_le_length (by decide),
      List.take_append_of_le_length (by decide)] at h3
  exact absurd h3 (by decide)

/-- The duplicate-name message differs from every invalid-name message. -/
theorem lemDupNeName (i j : Nat) (s : String) : dupMsg i s ≠ nameMsg i j :=
  lemDupNeFieldSuffix i j s " has invalid \"name\""

/-- The duplicate-name message differs from every invalid-type message. -/
theorem lemDupNeType (i j : Nat) (s : String) : dupMsg i s ≠ typeMsg i j :=
  lemDupNeFieldSuffix i j s " has invalid \"type\""

/-- The duplicate-name message differs from every field-must-be-object
message. -/
theorem lemDupNeFieldObj (i j : Nat) (s : String) : dupMsg i s ≠ fieldObjMsg i j :=
  lemDupNeFieldSuffix i j s " must be an object"

/-- The type check of one field never contributes a duplicate-name
message. -/
theorem lemTypeCountDup (i j : Nat) (s : String) (tv : JsValue) :
    (typeCheckErrs i j tv).count (dupMsg i s) = 0 := by
  rcases lemTypeCheckShape i j tv with hs | hs
  · rw [hs]
    rfl
  · rw [hs]
    simp [List.count_cons, Ne.symm (lemDupNeType i j s)]

/-- Over an arbitrary fields sequence, the duplicate-name messages for a
name `s` emitted by the per-field loop are counted exactly by the reference
duplicate scan over the sequence of valid names (invalid names, non-object
fields and type errors never contribute and never enter the seen set). -/
theorem lemFieldsGoDupCountGen (i : Nat) (s : String) :
    ∀ (fl : List JsValue) (j : Nat) (seen : List String),
      (fieldsErrorsGo i j seen fl).count (dupMsg i s) =
        (dupsOf seen (validNamesOf fl)).count s := by
  intro fl
  induction fl with
  | nil => intro j seen; rfl
  | cons f fs ih =>
    intro j seen
    unfold fieldsErrorsGo
    cases f with
    | obj ps =>
      have htc := lemTypeCountDup i j s (jsGetW (JsValue.obj ps) "type")
      cases hn : jsGetW (JsValue.obj ps) "name" with
      | str s' =>
        by_cases htr : jsTrimEmpty s' = true
        · have hvn : validNameOf (JsValue.obj ps) = none := by
            simp [validNameOf, hn, htr]
          simp [nameCheckErrs, hn, htr, List.count_append, List.count_cons,
            Ne.symm (lemDupNeName i j s), htc, ih (j + 1) seen, validNamesOf,
            List.filterMap_cons_none hvn]
        · have htr' : jsTrimEmpty s' = false := by simpa using htr
          have hvn : validNameOf (JsValue.obj ps) = some s' := by
            simp [validNameOf, hn, htr']
          by_cases hc : s' ∈ seen
          · have hc' : seen.contains s' = true := by simpa using hc
            by_cases hss : s' = s
            · subst hss
              simp [nameCheckErrs, hn, htr', hc, List.count_append,
                List.count_cons, htc, ih (j + 1) seen, validNamesOf,
                List.filterMap_cons_some hvn, dupsOf]
            · have hmsgne : dupMsg i s' ≠ dupMsg i s :=
                fun he => hss (lemDupMsgInj i he)
              simp [nameCheckErrs, hn, htr', hc, hss, hmsgne, List.count_append,
                List.count_cons, htc, ih (j + 1) seen, validNamesOf,
                List.filterMap_cons_some hvn, dupsOf]
          · simp [nameCheckErrs, hn, htr', hc, List.count_append, htc,
              ih (j + 1) (s' :: seen), validNamesOf,
              List.filterMap_cons_some hvn, dupsOf]
      | undef =>
        have hvn : validNameOf (JsValue.obj ps) = none := by
          simp [validNameOf, hn]
        simp [nameCheckErrs, hn, List.count_append, List.count_cons,
          Ne.symm (lemDupNeName i j s), htc, ih (j + 1) seen, validNamesOf,
          List.filterMap_cons_none hvn]
      | null =>
        have hvn : validNameOf (JsValue.obj ps) = none := by
          simp [validNameOf, hn]
        simp [nameCheckErrs, hn, List.count_append, List.count_cons,
          Ne.symm (lemDupNeName i j s), htc, ih (j + 1) seen, validNamesOf,
          List.filterMap_cons_none hvn]
      | bool b =>
        have hvn : validNameOf (JsValue.obj ps) = none := by
          simp [validNameOf, hn]
        simp [nameCheckErrs, hn, List.count_append, List.count_cons,
          Ne.symm (lemDupNeName i j s), htc, ih (j + 1) seen, validNamesOf,
          List.filterMap_cons_none hvn]
      | num n =>
        have hvn : validNameOf (JsValue.obj ps) = none := by
          simp [validNameOf, hn]
        simp [nameCheckErrs, hn, List.count_append, List.count_cons,
          Ne.symm (lemDupNeName i j s), htc, ih (j + 1) seen, validNamesOf,
          List.filterMap_cons_none hvn]
      | nonfinite nf =>
        have hvn : validNameOf (JsValue.obj ps) = none := by
          simp [validNameOf, hn]
        simp [nameCheckErrs, hn, List.count_append, List.count_cons,
          Ne.symm (lemDupNeName i j s), htc, ih (j + 1) seen, validNamesOf,
          List.filterMap_cons_none hvn]
      | arr xs =>
        have hvn : validNameOf (JsValue.obj ps) = none := by
          simp [validNameOf, hn]
        simp [nameCheckErrs, hn, List.count_append, List.count_cons,
          Ne.symm (lemDupNeName i j s), htc, ih (j + 1) seen, validNamesOf,
          List.filterMap_cons_none hvn]
      | obj ps2 =>
        have hvn : validNameOf (JsValue.obj ps) = none := by
          simp [validNameOf, hn]
        simp [nameCheckErrs, hn, List.count_append, List.count_cons,
          Ne.symm (lemDupNeName i j s), htc, ih (j + 1) seen, validNamesOf,
          List.filterMap_cons_none hvn]
    | undef =>
      simp [List.count_cons, Ne.symm (lemDupNeFieldObj i j s), ih (j + 1) seen,
        validNamesOf, validNameOf]
    | null =>
      simp [List.count_cons, Ne.symm (lemDupNeFieldObj i j s), ih (j + 1) seen,
        validNamesOf, validNameOf]
    | bool b =>
      simp [List.count_cons, Ne.symm (lemDupNeFieldObj i j s), ih (j + 1) seen,
        validNamesOf, validNameOf]
    | num n =>
      simp [List.count_cons, Ne.symm (lemDupNeFieldObj i j s), ih (j + 1) seen,
        validNamesOf, validNameOf]
    | nonfinite nf =>
      simp [List.count_cons, Ne.symm (lemDupNeFieldObj i j s), ih (j + 1) seen,
        validNamesOf, validNameOf]
    | str s2 =>
      simp [List.count_cons, Ne.symm (lemDupNeFieldObj i j s), ih (j + 1) seen,
        validNamesOf, validNameOf]
    | arr xs =>
      simp [List.count_cons, Ne.symm (lemDupNeFieldObj i j s), ih (j + 1) seen,
        validNamesOf, validNameOf]

/-- Claim C6: over an arbitrary fields sequence of a FileRule, a valid field
name with `n` valid occurrences yields exactly `n - 1` duplicate-name
errors — one per valid occurrence after the first, the name entering the
seen set only at its first valid occurrence (the `dupsOf` scan over
`validNamesOf`); invalid names, non-object fields and type errors neither
contribute duplicate-name messages nor perturb the count. -/
theorem duplicate_name_error_per_repeat (i : Nat) (fl : List JsValue) (s : String) :
    (∀ (j : Nat) (seen : List String),
      (fieldsErrorsGo i j seen fl).count (dupMsg i s) =
        (dupsOf seen (validNamesOf fl)).count s) ∧
    (fieldsErrorsGo i 0 [] fl).count (dupMsg i s) = (validNamesOf fl).count s - 1 := by
  refine ⟨lemFieldsGoDupCountGen i s fl, ?_⟩
  rw [lemFieldsGoDupCountGen i s fl 0 [], lemDupsOfCount]
  simp

/-- Witness for C6 at a mixed-validity fields list: the name `a` occurs
three times validly, beside a non-object field and a field with an invalid
type, and exactly two duplicate-name errors are emitted. -/
theorem duplicate_name_error_per_repeat_w :
    (fieldsErrorsGo 0 0 []
      [.obj [("name", .str "a"), ("type", .str "string")],
       .null,
       .obj [("name", .str "a"), ("type", .str "bogus")],
       .obj [("name", .str "a"), ("type", .str "string")]]).count (dupMsg 0 "a")
      = 2 := by
  have h := (duplicate_name_error_per_repeat 0
    [.obj [("name", .str "a"), ("type", .str "string")],
     .null,
     .obj [("name", .str "a"), ("type", .str "bogus")],
     .obj [("name", .str "a"), ("type", .str "string")]] "a").2
  rw [h]
  rfl

/-- Counterexample for C9 as stated: the whitespace path `" "` is a
non-empty string, yet the entry carrying it does receive the invalid-path
error — the code tests `path.trim().length === 0`, not mere
non-emptiness. -/
theorem path_nonempty_string_cex :
    jsGetW (.obj [("path", .str " ")]) "path" = .str " " ∧
    (" " : String) ≠ "" ∧
    pathMsg 0 ∈ entryErrors 0 (.obj [("path", .str " ")]) := by
  refine ⟨rfl, by decide, ?_⟩
  show pathMsg 0 ∈ pathMsg 0 :: fieldsCheck 0 JsValue.undef
  exact List.mem_cons_self _ _
